import Mathlib

/-!
Verification development for `lib/models_base.py` of the sastre repository.

The Python module represents configuration items as JSON payloads and provides:
  * `ConfigItem.is_equal` — char-sorted comparison of serialized payloads,
  * `ConfigItem._update_ids` — regex substitution of UUID-shaped substrings over
    the `json.dumps` serialization, followed by `json.loads`,
  * `ConfigItem.post_data` / `put_data` — derived POST/PUT payloads,
  * `ConfigItem.get_filename` / `load` / `save` — persistence,
  * `IndexConfigItem.__init__` — filename-collision detection,
  * `filename_safe` — name sanitization,
  * `ApiItem.get` / `get_raise` — REST fetch wrappers.

Payloads are modelled by the inductive `JVal` (JSON values with integer
numbers; object fields keep Python's dict insertion order).  `dumps` models
`json.dumps` with its default arguments (separators `", "` / `": "`,
`ensure_ascii=True` escaping including Python's short escapes `\b \t \n \f \r`
and surrogate pairs), and `loads` models `json.loads` restricted to integer
numbers.  The UUID regex `[0-9a-f]{8}-[0-9a-f]{4}-[0-9a-f]{4}-[0-9a-f]{4}-[0-9a-f]{12}`
is fixed-length, so `re.sub` is modelled exactly by the left-to-right,
non-overlapping scan `reSub`.
-/

/-- Character classes relevant to the UUID regex: lowercase hex digit, the
hyphen, or anything else.  A 36-character window matches the regex iff its
class string equals `uuidTemplate`. -/
inductive CClass where
  | hex : CClass
  | dash : CClass
  | other : CClass
deriving DecidableEq

/-- Class of a character with respect to the UUID pattern `[0-9a-f]` / `-`. -/
def classOf (c : Char) : CClass :=
  if ('0' ≤ c ∧ c ≤ '9') ∨ ('a' ≤ c ∧ c ≤ 'f') then .hex
  else if c = '-' then .dash
  else .other

/-- Class template of the UUID regex `[0-9a-f]{8}(-[0-9a-f]{4}){3}-[0-9a-f]{12}`:
hex everywhere except dashes at offsets 8, 13, 18, 23; total length 36. -/
def uuidTemplate : List CClass :=
  [.hex, .hex, .hex, .hex, .hex, .hex, .hex, .hex, .dash,
   .hex, .hex, .hex, .hex, .dash,
   .hex, .hex, .hex, .hex, .dash,
   .hex, .hex, .hex, .hex, .dash,
   .hex, .hex, .hex, .hex, .hex, .hex, .hex, .hex, .hex, .hex, .hex, .hex]

/-- A window matches the UUID regex iff its character classes equal the
template (this forces length 36). -/
def uuidMatch (w : List Char) : Bool :=
  w.map classOf = uuidTemplate

/-- Model of `re.sub(uuid_pattern, replace_id, s)` from
`ConfigItem._update_ids`: scan left to right; at each position, if the next 36
characters match the UUID pattern, emit `id_mapping_dict.get(match, match)`
and resume after the match, else emit the character and advance by one.
The mapping is an association list of (old id, new id) character lists;
`List.lookup` models `dict.get`. -/
def reSubFuel (M : List (List Char × List Char)) : Nat → List Char → List Char
  | 0, s => s
  | _ + 1, [] => []
  | f + 1, c :: cs =>
    if uuidMatch ((c :: cs).take 36) then
      (match M.lookup ((c :: cs).take 36) with
       | some v => v
       | none => (c :: cs).take 36) ++ reSubFuel M f ((c :: cs).drop 36)
    else
      c :: reSubFuel M f cs

def reSub (M : List (List Char × List Char)) (s : List Char) : List Char :=
  reSubFuel M s.length s

/-- JSON values as handled by the Python module: payloads are arbitrary nested
JSON with integer numbers; objects keep key insertion order (Python dicts). -/
inductive JVal where
  | null : JVal
  | bool (b : Bool) : JVal
  | num (n : Int) : JVal
  | str (s : String) : JVal
  | arr (elems : List JVal) : JVal
  | obj (fields : List (String × JVal)) : JVal

/-- Four lowercase hex digits of `n % 0x10000`, as emitted by Python's
`'\\u%04x' % n`. -/
def hex4 (n : Nat) : List Char :=
  [Nat.digitChar (n / 4096 % 16), Nat.digitChar (n / 256 % 16),
   Nat.digitChar (n / 16 % 16), Nat.digitChar (n % 16)]

/-- Escape of one character in `json.dumps` with `ensure_ascii=True`:
`"` and `\\` are backslash-escaped; control characters use the short escapes
`\b \t \n \f \r` where available and `\uXXXX` otherwise; printable ASCII is
emitted verbatim; all other characters use `\uXXXX`, with a surrogate pair
for code points above `0xFFFF`. -/
def escChar (c : Char) : List Char :=
  if c = '"' then ['\\', '"']
  else if c = '\\' then ['\\', '\\']
  else if c.toNat = 8 then ['\\', 'b']
  else if c.toNat = 9 then ['\\', 't']
  else if c.toNat = 10 then ['\\', 'n']
  else if c.toNat = 12 then ['\\', 'f']
  else if c.toNat = 13 then ['\\', 'r']
  else if c.toNat < 0x20 then '\\' :: 'u' :: hex4 c.toNat
  else if c.toNat < 0x7f then [c]
  else if c.toNat < 0x10000 then '\\' :: 'u' :: hex4 c.toNat
  else '\\' :: 'u' :: hex4 (0xd800 + (c.toNat - 0x10000) / 0x400) ++
       '\\' :: 'u' :: hex4 (0xdc00 + (c.toNat - 0x10000) % 0x400)

/-- Escaped form of a string body (between the quotes). -/
def escList : List Char → List Char
  | [] => []
  | c :: cs => escChar c ++ escList cs

/-- Decimal digits of a natural number, as Python's `str` (fuel-indexed). -/
def natDumpAux : Nat → Nat → List Char
  | 0, _ => []
  | f + 1, n =>
    if n < 10 then [Nat.digitChar n]
    else natDumpAux f (n / 10) ++ [Nat.digitChar (n % 10)]

/-- Decimal digits of a natural number, as Python's `str`. -/
def natDump (n : Nat) : List Char :=
  natDumpAux (n + 1) n

/-- Decimal representation of an integer, as Python's `str`. -/
def intDump (i : Int) : List Char :=
  if i < 0 then '-' :: natDump (-i).toNat else natDump i.toNat

mutual

/-- Model of `json.dumps` with default arguments: item separator `", "`,
key separator `": "`, insertion-ordered dict keys, `ensure_ascii=True`. -/
def dumps : JVal → List Char
  | .null => 'n' :: ['u', 'l', 'l']
  | .bool true => 't' :: ['r', 'u', 'e']
  | .bool false => 'f' :: ['a', 'l', 's', 'e']
  | .num i => intDump i
  | .str s => '"' :: escList s.data ++ ['"']
  | .arr l => '[' :: dumpsItems l ++ [']']
  | .obj l => '{' :: dumpsMembers l ++ ['}']

/-- Array elements joined by `", "`. -/
def dumpsItems : List JVal → List Char
  | [] => []
  | [j] => dumps j
  | j :: rest => dumps j ++ ',' :: ' ' :: dumpsItems rest

/-- Object members `"key": value` joined by `", "`. -/
def dumpsMembers : List (String × JVal) → List Char
  | [] => []
  | [(k, v)] => '"' :: escList k.data ++ '"' :: ':' :: ' ' :: dumps v
  | (k, v) :: rest =>
      '"' :: escList k.data ++ '"' :: ':' :: ' ' :: dumps v ++
      ',' :: ' ' :: dumpsMembers rest

end

/-- JSON whitespace skipping, as in Python's `json` scanner
(space, tab, newline, carriage return). -/
def skipWs : List Char → List Char
  | [] => []
  | c :: cs =>
    if c = ' ' ∨ c = '\t' ∨ c = '\n' ∨ c = '\r' then skipWs cs else c :: cs

/-- Value of a hex digit as accepted by `json.loads` in `\uXXXX` escapes
(both cases). -/
def hexVal (c : Char) : Option Nat :=
  if '0' ≤ c ∧ c ≤ '9' then some (c.toNat - 48)
  else if 'a' ≤ c ∧ c ≤ 'f' then some (c.toNat - 87)
  else if 'A' ≤ c ∧ c ≤ 'F' then some (c.toNat - 55)
  else none

/-- Prepend a character to the string part of a string-scan result. -/
def consStr (c : Char) : Option (List Char × List Char) → Option (List Char × List Char)
  | some (cs, rest) => some (c :: cs, rest)
  | none => none

/-- Combined value of four hex digits, as read for a `\uXXXX` escape. -/
def hexVal4 (a b c d : Char) : Option Nat :=
  (hexVal a).bind (fun x1 => (hexVal b).bind (fun x2 =>
    (hexVal c).bind (fun x3 => (hexVal d).map (fun x4 =>
      ((x1 * 16 + x2) * 16 + x3) * 16 + x4))))

mutual

/-- Model of the Python `json` string scanner (`py_scanstring`, strict mode),
reading a string body up to the closing quote: handles the escapes
`\" \\ \/ \b \f \n \r \t \uXXXX`, combines surrogate pairs, and rejects
unescaped control characters.  (Python keeps a lone surrogate as a lone
surrogate code unit; such a code unit is not a Lean `Char`, so this model
rejects it — `dumps` never produces one.) -/
def parseStrBody : List Char → Option (List Char × List Char)
  | [] => none
  | c :: r =>
    if c = '"' then some ([], r)
    else if c = '\\' then parseEsc r
    else if c.toNat < 0x20 then none
    else consStr c (parseStrBody r)

/-- Scan the character after a backslash. -/
def parseEsc : List Char → Option (List Char × List Char)
  | [] => none
  | e :: r =>
    if e = '"' then consStr '"' (parseStrBody r)
    else if e = '\\' then consStr '\\' (parseStrBody r)
    else if e = '/' then consStr '/' (parseStrBody r)
    else if e = 'b' then consStr (Char.ofNat 8) (parseStrBody r)
    else if e = 'f' then consStr (Char.ofNat 12) (parseStrBody r)
    else if e = 'n' then consStr (Char.ofNat 10) (parseStrBody r)
    else if e = 'r' then consStr (Char.ofNat 13) (parseStrBody r)
    else if e = 't' then consStr (Char.ofNat 9) (parseStrBody r)
    else if e = 'u' then parseU r
    else none

/-- Scan the four hex digits after `\u`; a high surrogate must be followed by
a `\uXXXX` low surrogate. -/
def parseU : List Char → Option (List Char × List Char)
  | a :: b :: c :: d :: r =>
    (hexVal4 a b c d).bind (fun n =>
      if n < 0xd800 ∨ 0xe000 ≤ n then consStr (Char.ofNat n) (parseStrBody r)
      else if n < 0xdc00 then parseLow n r
      else none)
  | _ => none

/-- Scan the `\uXXXX` low surrogate following a high surrogate `n` and
combine the pair into one code point. -/
def parseLow (n : Nat) : List Char → Option (List Char × List Char)
  | b1 :: b2 :: a :: b :: c :: d :: r =>
    if b1 = '\\' ∧ b2 = 'u' then
      (hexVal4 a b c d).bind (fun m =>
        if 0xdc00 ≤ m ∧ m < 0xe000 then
          consStr (Char.ofNat (0x10000 + (n - 0xd800) * 0x400 + (m - 0xdc00)))
            (parseStrBody r)
        else none)
    else none
  | _ => none

end

/-- Maximal run of decimal digits, accumulating the value. -/
def parseDigits (acc : Nat) : List Char → Nat × List Char
  | [] => (acc, [])
  | c :: r =>
    if '0' ≤ c ∧ c ≤ '9' then parseDigits (acc * 10 + (c.toNat - 48)) r
    else (acc, c :: r)

/-- Unsigned integer of the JSON number grammar `0|[1-9][0-9]*`
(leading zeros are not part of the grammar). -/
def parseNatTok : List Char → Option (Nat × List Char)
  | [] => none
  | c :: r =>
    if c = '0' then some (0, r)
    else if '1' ≤ c ∧ c ≤ '9' then some (parseDigits (c.toNat - 48) r)
    else none

/-- Signed integer token `-?(0|[1-9][0-9]*)`.  (The fraction and exponent
parts of the JSON number grammar are not modelled: payload numbers are
integers in this development.) -/
def parseIntTok (s : List Char) : Option (Int × List Char) :=
  if s.head? = some '-' then (parseNatTok s.tail).map (fun p => (-(p.1 : Int), p.2))
  else (parseNatTok s).map (fun p => ((p.1 : Int), p.2))

mutual

/-- Model of the Python `json` scanner for one value: skip whitespace, then
dispatch on the first character (`null`, `true`, `false`, string, array,
object, or number).  `fuel` bounds the recursion depth; every recursive call
decrements it. -/
def parseVal : Nat → List Char → Option (JVal × List Char)
  | 0, _ => none
  | fuel + 1, s =>
    let s1 := skipWs s
    if s1.take 4 = ['n', 'u', 'l', 'l'] then some (.null, s1.drop 4)
    else if s1.take 4 = ['t', 'r', 'u', 'e'] then some (.bool true, s1.drop 4)
    else if s1.take 5 = ['f', 'a', 'l', 's', 'e'] then some (.bool false, s1.drop 5)
    else
      match s1 with
      | [] => none
      | c :: r =>
        if c = '"' then
          (parseStrBody r).map (fun p => (.str ⟨p.1⟩, p.2))
        else if c = '[' then
          if (skipWs r).head? = some ']' then some (.arr [], (skipWs r).tail)
          else (parseItems fuel (skipWs r)).map (fun p => (.arr p.1, p.2))
        else if c = '{' then
          if (skipWs r).head? = some '}' then some (.obj [], (skipWs r).tail)
          else (parseMembers fuel (skipWs r)).map (fun p => (.obj p.1, p.2))
        else
          (parseIntTok (c :: r)).map (fun p => (.num p.1, p.2))

/-- Elements of a non-empty array: value, then `,` and more elements or the
closing `]`. -/
def parseItems : Nat → List Char → Option (List JVal × List Char)
  | 0, _ => none
  | fuel + 1, s =>
    (parseVal fuel s).bind (fun p =>
      if (skipWs p.2).head? = some ',' then
        (parseItems fuel (skipWs p.2).tail).map (fun q => (p.1 :: q.1, q.2))
      else if (skipWs p.2).head? = some ']' then some ([p.1], (skipWs p.2).tail)
      else none)

/-- Members of a non-empty object: `"key"`, `:`, value, then `,` and more
members or the closing `}`. -/
def parseMembers : Nat → List Char → Option (List (String × JVal) × List Char)
  | 0, _ => none
  | fuel + 1, s =>
    if (skipWs s).head? = some '"' then
      (parseStrBody (skipWs s).tail).bind (fun pk =>
        if (skipWs pk.2).head? = some ':' then
          (parseVal fuel (skipWs pk.2).tail).bind (fun pv =>
            if (skipWs pv.2).head? = some ',' then
              (parseMembers fuel (skipWs pv.2).tail).map
                (fun q => ((⟨pk.1⟩, pv.1) :: q.1, q.2))
            else if (skipWs pv.2).head? = some '}' then
              some ([(⟨pk.1⟩, pv.1)], (skipWs pv.2).tail)
            else none)
        else none)
    else none

end

/-- Model of `json.loads`: parse one value with sufficient fuel and require
only whitespace to remain; `none` models `json.decoder.JSONDecodeError`. -/
def loads (s : List Char) : Option JVal :=
  match parseVal (s.length + 1) s with
  | some (j, rest) => if skipWs rest = [] then some j else none
  | none => none

/-- A list is an acceptable continuation after a number token if it does not
start with a digit (so the maximal-munch digit scan stops exactly there). -/
def restOk (r : List Char) : Prop :=
  ∀ c, r.head? = some c → ¬('0' ≤ c ∧ c ≤ '9')

mutual

/-- Fuel sufficient to parse a serialized value (one unit per value nesting
step plus one per list element). -/
def jfuel : JVal → Nat
  | .null => 1
  | .bool _ => 1
  | .num _ => 1
  | .str _ => 1
  | .arr l => 1 + lfuel l
  | .obj m => 1 + mfuel m

def lfuel : List JVal → Nat
  | [] => 0
  | j :: t => 1 + max (jfuel j) (lfuel t)

def mfuel : List (String × JVal) → Nat
  | [] => 0
  | (_, v) :: t => 1 + max (jfuel v) (mfuel t)

end

/-- Characters that `json.dumps` emits verbatim inside a string literal
(printable ASCII except the quote and the backslash). -/
def plainChar (c : Char) : Bool :=
  (0x20 ≤ c.toNat && c.toNat < 0x7f) && !(c = '"') && !(c = '\\')

mutual

/-- Payloads whose strings (values and keys) need no escape sequences. -/
def plainJson : JVal → Bool
  | .null => true
  | .bool _ => true
  | .num _ => true
  | .str s => s.data.all plainChar
  | .arr l => plainJsonList l
  | .obj m => plainJsonObj m

def plainJsonList : List JVal → Bool
  | [] => true
  | j :: t => plainJson j && plainJsonList t

def plainJsonObj : List (String × JVal) → Bool
  | [] => true
  | (k, v) :: t => k.data.all plainChar && plainJson v && plainJsonObj t

end

mutual

/-- Structural view of the textual rewrite on plain payloads: every string
(and every object key) has the UUID substitution applied to its characters. -/
def reSubJ (M : List (List Char × List Char)) : JVal → JVal
  | .null => .null
  | .bool b => .bool b
  | .num i => .num i
  | .str s => .str ⟨reSub M s.data⟩
  | .arr l => .arr (reSubJList M l)
  | .obj m => .obj (reSubJObj M m)

def reSubJList (M : List (List Char × List Char)) : List JVal → List JVal
  | [] => []
  | j :: t => reSubJ M j :: reSubJList M t

def reSubJObj (M : List (List Char × List Char)) :
    List (String × JVal) → List (String × JVal)
  | [] => []
  | (k, v) :: t => (⟨reSub M k.data⟩, reSubJ M v) :: reSubJObj M t

end

/-- A continuation is boundary-safe when its first character (if any) is
outside the UUID alphabet. -/
def headOther (R : List Char) : Prop :=
  ∀ c, R.head? = some c → classOf c = .other

/-- Insert a character into a sorted list, keeping it sorted. -/
def insortChar (c : Char) : List Char → List Char
  | [] => [c]
  | d :: t => if c ≤ d then c :: d :: t else d :: insortChar c t

/-- Characters sorted as Python's `sorted(json.dumps(...))` sorts the
serialized text: a stable comparison sort by code point. -/
def sortChars : List Char → List Char
  | [] => []
  | c :: t => insortChar c (sortChars t)

/-- The key filter of `ConfigItem.is_equal`: drop keys in
`skip_cmp_tag_set | {id_tag}`. -/
def cmpFilter (id_tag : Option String) (skip_cmp_tag_set : List String)
    (d : List (String × JVal)) : List (String × JVal) :=
  d.filter (fun kv => !(skip_cmp_tag_set.contains kv.1 || some kv.1 == id_tag))

/-- Model of `ConfigItem.is_equal`: filter both dicts, serialize each with
`json.dumps`, sort the characters of each serialization and compare. -/
def is_equal (id_tag : Option String) (skip_cmp_tag_set : List String)
    (data other : List (String × JVal)) : Bool :=
  sortChars (dumps (.obj (cmpFilter id_tag skip_cmp_tag_set data))) ==
    sortChars (dumps (.obj (cmpFilter id_tag skip_cmp_tag_set other)))

/-- Model of `ConfigItem._update_ids`: `json.loads` of the UUID regex
substitution applied to `json.dumps(data_dict)`. -/
def update_ids (id_mapping_dict : List (String × String)) (data_dict : JVal) :
    Option JVal :=
  loads (reSub (id_mapping_dict.map (fun p => (p.1.data, p.2.data))) (dumps data_dict))

/-- Python `d[k] = v` on an insertion-ordered dict: overwrite in place if the
key exists, else append. -/
def dictSet (d : List (String × JVal)) (k : String) (v : JVal) :
    List (String × JVal) :=
  if d.any (fun kv => kv.1 == k) then d.map (fun kv => if kv.1 == k then (k, v) else kv)
  else d ++ [(k, v)]

/-- Model of `ConfigItem.post_data`: drop `id_tag` and the kind-specific
`post_filtered_tags`, optionally overwrite the name, then apply
`_update_ids`. -/
def post_data (id_tag : Option String) (name_tag : String)
    (post_filtered_tags : List String) (data : List (String × JVal))
    (id_mapping_dict : List (String × String)) (new_name : Option String) :
    Option JVal :=
  let post_dict := data.filter
    (fun kv => !(some kv.1 == id_tag || post_filtered_tags.contains kv.1))
  let renamed := match new_name with
    | some nm => dictSet post_dict name_tag (.str nm)
    | none => post_dict
  update_ids id_mapping_dict (.obj renamed)

/-- Model of `ConfigItem.put_data`: apply `_update_ids` to the unfiltered
data dict. -/
def put_data (id_mapping_dict : List (String × String))
    (data : List (String × JVal)) : Option JVal :=
  update_ids id_mapping_dict (.obj data)

/-- ASCII fragment of Python's regex class `\w` (`re.UNICODE` additionally
matches non-ASCII word characters; theorems about non-ASCII behaviour are
stated on ASCII inputs only). -/
def reClassW (c : Char) : Bool :=
  c.isAlphanum || c = '_'

/-- Exact ASCII fragment of Python's regex class `\s` in str patterns:
space, tab, newline, carriage return, vertical tab, form feed, and the
separator control characters U+001C to U+001F.  (Outside ASCII, `\s` also
matches U+0085, U+00A0 and the Unicode space characters; theorems about
`filename_safe` are therefore stated on ASCII inputs only.) -/
def reClassS (c : Char) : Bool :=
  c = ' ' || c = '\t' || c = '\n' || c = '\r' || c = '\x0b' || c = '\x0c' ||
    c = '\x1c' || c = '\x1d' || c = '\x1e' || c = '\x1f'

/-- Model of `filename_safe`: `re.sub(r'[^\w\s-]', '_', name)`, then
`str.lower()` when `lower` is set (ASCII case folding). -/
def filename_safe (name : String) (lower : Bool := false) : String :=
  let cleaned : List Char :=
    name.data.map (fun c => if !(reClassW c || reClassS c || c = '-') then '_' else c)
  ⟨if lower then cleaned.map Char.toLower else cleaned⟩

/-- Left-to-right expansion of the `{item_name}` / `{item_id}` placeholders,
modelling `str.format` for the store-file templates of this module. -/
def pyFormat (item_name item_id : String) : List Char → List Char
  | [] => []
  | c :: cs =>
    if (c :: cs).take 11 = "{item_name}".data then
      item_name.data ++ pyFormat item_name item_id ((c :: cs).drop 11)
    else if (c :: cs).take 9 = "{item_id}".data then
      item_id.data ++ pyFormat item_name item_id ((c :: cs).drop 9)
    else c :: pyFormat item_name item_id cs
termination_by s => s.length
decreasing_by
  · simp only [List.length_drop, List.length_cons]; omega
  · simp only [List.length_drop, List.length_cons]; omega
  · simp

/-- Model of `ConfigItem.get_filename`: with a missing name or id the static
`store_file` is returned unchanged; otherwise the (possibly extended) safe
name and the id are substituted into the template. -/
def get_filename (store_file : String) (ext_name : Bool)
    (item_name item_id : Option String) : String :=
  match item_name, item_id with
  | some nm, some iid =>
    let safe_name := if !ext_name then filename_safe nm
      else filename_safe nm ++ "_" ++ iid
    ⟨pyFormat safe_name iid store_file.data⟩
  | _, _ => store_file

/-- Path `<root_dir>/<node_dir>/<store_path...>/<filename>` used by
`ConfigItem.load` and `ConfigItem.save`. -/
def storeFilePath (root_dir node_dir : String) (store_path : List String)
    (store_file : String) (ext_name : Bool) (item_name item_id : Option String) :
    String :=
  String.intercalate "/"
    ([root_dir, node_dir] ++ store_path ++
      [get_filename store_file ext_name item_name item_id])

/-- Model of `ConfigItem.load`.  The filesystem is a partial map from path to
file contents; `none` models `FileNotFoundError`, and a failing parse models
`json.decoder.JSONDecodeError`, re-raised as `ModelException`. -/
def load (fs : String → Option String) (root_dir node_dir : String)
    (store_path : List String) (store_file : String) (ext_name : Bool)
    (item_name item_id : Option String) : Except String (Option JVal) :=
  match fs (storeFilePath root_dir node_dir store_path store_file ext_name
      item_name item_id) with
  | none => .ok none
  | some content =>
    match loads content.data with
    | none => .error "ModelException: Invalid JSON file"
    | some j => .ok (some j)

/-- Model of `ApiItem.is_empty`: `data is None or len(data) == 0`.  A
top-level JSON `null` loads as Python `None`, so it is empty too.  (`len`
of a JSON number raises `TypeError` in Python; payloads are containers or
strings here.) -/
def is_empty (data : Option JVal) : Bool :=
  match data with
  | none => true
  | some .null => true
  | some (.obj m) => m.isEmpty
  | some (.arr l) => l.isEmpty
  | some (.str s) => s.isEmpty
  | some _ => false

/-- Model of `ConfigItem.save`: no file is written when the data is empty
(the method returns `False`); otherwise the target path is returned (the
method writes the file and returns `True`).  The written JSON text itself
(`indent=2`) is not modelled. -/
def save (data : Option JVal) (root_dir node_dir : String)
    (store_path : List String) (store_file : String) (ext_name : Bool)
    (item_name item_id : Option String) : Option String :=
  if is_empty data then none
  else some (storeFilePath root_dir node_dir store_path store_file ext_name
    item_name item_id)

/-- The name field of one index entry, as read by
`self.iter(self.iter_fields.name)` (`itemgetter(name_field)`); a malformed
entry (where `itemgetter` would raise in Python) yields `none` and is
excluded by hypothesis in the theorems. -/
def extractName (name_field : String) : JVal → Option String
  | .obj fields =>
    (match fields.lookup name_field with
     | some (.str s) => some s
     | _ => none)
  | _ => none

/-- Model of `IndexConfigItem.__init__` collision detection: the set of
`filename_safe(name, lower=True)` over all names in the index, compared in
size with the number of entries. -/
def need_extended_name (name_field : String) (data : List JVal) : Bool :=
  let names := data.filterMap (extractName name_field)
  ((names.map (fun nm => filename_safe nm true)).dedup).length ≠ data.length

/-- In-memory API item (the `data` payload). -/
structure ApiItemRec where
  data : JVal

namespace ApiItem

/-- Model of `ApiItem.get_raise`: build an item from `api.get(...)`; a
transport error (`RestAPIException`) propagates. -/
def get_raise (api_result : Except String JVal) : Except String ApiItemRec :=
  api_result.map ApiItemRec.mk

/-- Model of `ApiItem.get`: `try: return cls.get_raise(...) except
RestAPIException: return None`. -/
def get (api_result : Except String JVal) : Option ApiItemRec :=
  match get_raise api_result with
  | .ok item => some item
  | .error _ => none

end ApiItem

/-- The serialized `"key": value` text of one object member. -/
def memberChars (kv : String × JVal) : List Char :=
  '"' :: escList kv.1.data ++ '"' :: ':' :: ' ' :: dumps kv.2

/-- `dict.__contains__` on an insertion-ordered dict. -/
def hasKey (m : List (String × JVal)) (t : String) : Bool :=
  m.any (fun kv => kv.1 == t)

/-- The identifier mapping of the C2 counterexample: no value is a key. -/
def ceM : List (String × String) :=
  [("00abcdef-0123-4567-89ab-cdef01234567", "00084567-89ab-cdef-0123-456789abcdef"),
   ("89abcdef-0123-4567-89ab-cdef01234567", "11111111-1111-1111-1111-111111111111")]

/-- The payload of the C2 counterexample: its serialization escapes `«` to
`«`, whose hex digits let a UUID window start inside the escape. -/
def ceP : JVal :=
  .obj [("a", .str "«cdef-0123-4567-89ab-cdef01234567-0123-4567-89ab-cdef01234567")]

/-- Result of one rewrite of `ceP`: `«…` was absorbed into a match and
replaced, so the value now starts with the control character U+0008. -/
def ceQ₁ : JVal :=
  .obj [("a", .str "\x084567-89ab-cdef-0123-456789abcdef-0123-4567-89ab-cdef01234567")]

/-- Result of a second rewrite: re-serialization emits U+0008 as the
two-character escape `\b`, which shifts the text and exposes a fresh match
of the second mapping key. -/
def ceQ₂ : JVal :=
  .obj [("a", .str "\x084567-89ab-cdef-0123-456711111111-1111-1111-1111-111111111111")]

theorem reSubFuel_fuel (M : List (List Char × List Char)) :
    ∀ f f' s, s.length ≤ f → s.length ≤ f' → reSubFuel M f s = reSubFuel M f' s := by
  intro f
  induction f with
  | zero =>
    intro f' s h h'
    have hs : s = [] := List.eq_nil_of_length_eq_zero (by omega)
    subst hs
    cases f' <;> rfl
  | succ f ih =>
    intro f' s h h'
    cases s with
    | nil => cases f' <;> rfl
    | cons c cs =>
      cases f' with
      | zero => simp at h'
      | succ f2 =>
        rw [reSubFuel, reSubFuel]
        by_cases hm : uuidMatch ((c :: cs).take 36) = true
        · rw [if_pos hm, if_pos hm,
            ih f2 ((c :: cs).drop 36)
              (by rw [List.length_drop]; simp at h ⊢; omega)
              (by rw [List.length_drop]; simp at h' ⊢; omega)]
        · rw [if_neg hm, if_neg hm,
            ih f2 cs (by simp at h; omega) (by simp at h'; omega)]

theorem reSub_nil (M : List (List Char × List Char)) : reSub M [] = [] := rfl

theorem reSub_cons (M : List (List Char × List Char)) (c : Char) (cs : List Char) :
    reSub M (c :: cs) =
      if uuidMatch ((c :: cs).take 36) then
        (match M.lookup ((c :: cs).take 36) with
         | some v => v
         | none => (c :: cs).take 36) ++ reSub M ((c :: cs).drop 36)
      else
        c :: reSub M cs := by
  show reSubFuel M (cs.length + 1) (c :: cs) = _
  rw [reSubFuel]
  by_cases hm : uuidMatch ((c :: cs).take 36) = true
  · rw [if_pos hm, if_pos hm,
      reSubFuel_fuel M cs.length ((c :: cs).drop 36).length ((c :: cs).drop 36)
        (by rw [List.length_drop, List.length_cons]; omega) (le_refl _)]
    rfl
  · rw [if_neg hm, if_neg hm]
    rfl

theorem natDumpAux_fuel : ∀ f f' n, n < f → n < f' → natDumpAux f n = natDumpAux f' n := by
  intro f
  induction f with
  | zero => intro f' n h; omega
  | succ f ih =>
    intro f' n hf hf'
    cases f' with
    | zero => omega
    | succ f2 =>
      rw [natDumpAux, natDumpAux]
      by_cases h : n < 10
      · rw [if_pos h, if_pos h]
      · rw [if_neg h, if_neg h, ih f2 (n / 10) (by omega) (by omega)]

theorem natDump_eq (n : Nat) :
    natDump n = if n < 10 then [Nat.digitChar n]
                else natDump (n / 10) ++ [Nat.digitChar (n % 10)] := by
  rw [natDump, natDumpAux]
  by_cases h : n < 10
  · rw [if_pos h, if_pos h]
  · rw [if_neg h, if_neg h,
      natDumpAux_fuel n (n / 10 + 1) (n / 10) (by omega) (by omega)]
    rfl

/-- Valid code-point range of a Lean character (no surrogates). -/
theorem char_toNat_range (c : Char) :
    c.toNat < 0xd800 ∨ (0xe000 ≤ c.toNat ∧ c.toNat < 0x110000) := by
  have h := c.valid
  rcases h with h | h
  · exact Or.inl h
  · exact Or.inr h

/-- Decoding a hex digit emitted by the serializer. -/
theorem hexVal_digitChar (k : Fin 16) :
    hexVal (Nat.digitChar k.val) = some k.val := by
  revert k; decide

theorem hexVal_digitChar' {k : Nat} (hk : k < 16) : hexVal (Nat.digitChar k) = some k :=
  hexVal_digitChar ⟨k, hk⟩

theorem skipWs_notWs {c : Char} (h : ¬(c = ' ' ∨ c = '\t' ∨ c = '\n' ∨ c = '\r'))
    (r : List Char) : skipWs (c :: r) = c :: r := by
  simp [skipWs, h]

theorem skipWs_space (r : List Char) : skipWs (' ' :: r) = skipWs r := by
  simp [skipWs]

theorem consStr_some {c : Char} {o : Option (List Char × List Char)}
    {cs rest : List Char} (h : o = some (cs, rest)) :
    consStr c o = some (c :: cs, rest) := by
  subst h; rfl

/-- Nibble recomposition for 4-digit hex escapes. -/
theorem hex4_recompose {n : Nat} (h : n < 0x10000) :
    ((n / 4096 % 16 * 16 + n / 256 % 16) * 16 + n / 16 % 16) * 16 + n % 16 = n := by
  omega

/-- Decoding the four hex digits emitted for `n < 0x10000`. -/
theorem hexVal4_digits {n : Nat} (h : n < 0x10000) :
    hexVal4 (Nat.digitChar (n / 4096 % 16)) (Nat.digitChar (n / 256 % 16))
      (Nat.digitChar (n / 16 % 16)) (Nat.digitChar (n % 16)) = some n := by
  rw [hexVal4, hexVal_digitChar' (by omega), hexVal_digitChar' (by omega),
    hexVal_digitChar' (by omega), hexVal_digitChar' (by omega)]
  simp [hex4_recompose h]

/-- Evaluating `parseU` on the serializer's four hex digits of a
non-surrogate code point. -/
theorem parseU_hex4 {n : Nat} (h : n < 0x10000) (hs : n < 0xd800 ∨ 0xe000 ≤ n)
    (t : List Char) :
    parseU (hex4 n ++ t) = consStr (Char.ofNat n) (parseStrBody t) := by
  rw [hex4]
  simp only [List.cons_append, List.nil_append]
  rw [parseU, hexVal4_digits h]
  simp only [Option.some_bind]
  rw [if_pos hs]

/-- Evaluating `parseU` on a serialized surrogate pair. -/
theorem parseU_pair {hi lo : Nat} (hhi : 0xd800 ≤ hi ∧ hi < 0xdc00)
    (hlo : 0xdc00 ≤ lo ∧ lo < 0xe000) (t : List Char) :
    parseU (hex4 hi ++ '\\' :: 'u' :: hex4 lo ++ t) =
      consStr (Char.ofNat (0x10000 + (hi - 0xd800) * 0x400 + (lo - 0xdc00)))
        (parseStrBody t) := by
  rw [hex4, hex4]
  simp only [List.cons_append, List.nil_append]
  rw [parseU, hexVal4_digits (by omega)]
  simp only [Option.some_bind]
  rw [if_neg (by omega), if_pos (by omega)]
  rw [parseLow, if_pos (by exact ⟨rfl, rfl⟩), hexVal4_digits (by omega)]
  simp only [Option.some_bind]
  rw [if_pos (by omega)]

/-- Scanning the escaped form of one character continues with that character. -/
theorem parseStrBody_escChar (c : Char) (t : List Char) :
    parseStrBody (escChar c ++ t) = consStr c (parseStrBody t) := by
  have hval := char_toNat_range c
  by_cases h1 : c = '"'
  · subst h1; simp [escChar, parseStrBody, parseEsc]
  by_cases h2 : c = '\\'
  · subst h2; simp [escChar, parseStrBody, parseEsc]
  by_cases h3 : c.toNat = 8
  · have hc : c = Char.ofNat 8 := by rw [← h3, Char.ofNat_toNat]
    rw [escChar, if_neg h1, if_neg h2, if_pos h3]
    conv_rhs => rw [hc]
    simp [parseStrBody, parseEsc]
  by_cases h4 : c.toNat = 9
  · have hc : c = Char.ofNat 9 := by rw [← h4, Char.ofNat_toNat]
    rw [escChar, if_neg h1, if_neg h2, if_neg h3, if_pos h4]
    conv_rhs => rw [hc]
    simp [parseStrBody, parseEsc]
  by_cases h5 : c.toNat = 10
  · have hc : c = Char.ofNat 10 := by rw [← h5, Char.ofNat_toNat]
    rw [escChar, if_neg h1, if_neg h2, if_neg h3, if_neg h4, if_pos h5]
    conv_rhs => rw [hc]
    simp [parseStrBody, parseEsc]
  by_cases h6 : c.toNat = 12
  · have hc : c = Char.ofNat 12 := by rw [← h6, Char.ofNat_toNat]
    rw [escChar, if_neg h1, if_neg h2, if_neg h3, if_neg h4, if_neg h5, if_pos h6]
    conv_rhs => rw [hc]
    simp [parseStrBody, parseEsc]
  by_cases h7 : c.toNat = 13
  · have hc : c = Char.ofNat 13 := by rw [← h7, Char.ofNat_toNat]
    rw [escChar, if_neg h1, if_neg h2, if_neg h3, if_neg h4, if_neg h5, if_neg h6, if_pos h7]
    conv_rhs => rw [hc]
    simp [parseStrBody, parseEsc]
  by_cases h8 : c.toNat < 0x20
  · rw [escChar, if_neg h1, if_neg h2, if_neg h3, if_neg h4, if_neg h5, if_neg h6, if_neg h7,
      if_pos h8]
    have h0 : parseStrBody (('\\' :: 'u' :: hex4 c.toNat) ++ t) =
        parseU (hex4 c.toNat ++ t) := by
      simp [parseStrBody, parseEsc]
    rw [h0, parseU_hex4 (by omega) (by omega), Char.ofNat_toNat]
  by_cases h9 : c.toNat < 0x7f
  · rw [escChar, if_neg h1, if_neg h2, if_neg h3, if_neg h4, if_neg h5, if_neg h6, if_neg h7,
      if_neg h8, if_pos h9]
    simp only [List.cons_append, List.nil_append]
    rw [parseStrBody, if_neg h1, if_neg h2, if_neg h8]
  by_cases h10 : c.toNat < 0x10000
  · rw [escChar, if_neg h1, if_neg h2, if_neg h3, if_neg h4, if_neg h5, if_neg h6, if_neg h7,
      if_neg h8, if_neg h9, if_pos h10]
    have h0 : parseStrBody (('\\' :: 'u' :: hex4 c.toNat) ++ t) =
        parseU (hex4 c.toNat ++ t) := by
      simp [parseStrBody, parseEsc]
    rw [h0, parseU_hex4 h10 (by omega), Char.ofNat_toNat]
  · rw [escChar, if_neg h1, if_neg h2, if_neg h3, if_neg h4, if_neg h5, if_neg h6, if_neg h7,
      if_neg h8, if_neg h9, if_neg h10]
    have hub : c.toNat < 0x110000 := by omega
    have h0 : parseStrBody (('\\' :: 'u' :: hex4 (0xd800 + (c.toNat - 0x10000) / 0x400) ++
        '\\' :: 'u' :: hex4 (0xdc00 + (c.toNat - 0x10000) % 0x400)) ++ t) =
        parseU (hex4 (0xd800 + (c.toNat - 0x10000) / 0x400) ++
          '\\' :: 'u' :: hex4 (0xdc00 + (c.toNat - 0x10000) % 0x400) ++ t) := by
      simp [parseStrBody, parseEsc]
    rw [h0, parseU_pair (by omega) (by constructor <;> omega)]
    have harith : 0x10000 + (0xd800 + (c.toNat - 0x10000) / 0x400 - 0xd800) * 0x400 +
        (0xdc00 + (c.toNat - 0x10000) % 0x400 - 0xdc00) = c.toNat := by omega
    rw [harith, Char.ofNat_toNat]

/-- Round trip of string bodies: scanning the escaped form recovers the
original characters and stops at the closing quote. -/
theorem parseStrBody_escList (cs : List Char) (rest : List Char) :
    parseStrBody (escList cs ++ '"' :: rest) = some (cs, rest) := by
  induction cs with
  | nil => simp [escList, parseStrBody]
  | cons c t ih =>
    rw [escList, List.append_assoc, parseStrBody_escChar]
    exact consStr_some ih

theorem digitChar_bounds (d : Fin 10) :
    '0' ≤ Nat.digitChar d.val ∧ Nat.digitChar d.val ≤ '9' := by
  revert d; decide

theorem digitChar_toNat (d : Fin 10) : (Nat.digitChar d.val).toNat = 48 + d.val := by
  revert d; decide

theorem digitChar_bounds' {d : Nat} (hd : d < 10) :
    '0' ≤ Nat.digitChar d ∧ Nat.digitChar d ≤ '9' :=
  digitChar_bounds ⟨d, hd⟩

theorem digitChar_toNat' {d : Nat} (hd : d < 10) : (Nat.digitChar d).toNat = 48 + d :=
  digitChar_toNat ⟨d, hd⟩

theorem restOk_nil : restOk [] := by
  intro c h; simp at h

theorem restOk_cons {c : Char} (h : ¬('0' ≤ c ∧ c ≤ '9')) (r : List Char) :
    restOk (c :: r) := by
  intro c' h'
  simp at h'
  exact h' ▸ h

theorem parseDigits_stop (acc : Nat) {r : List Char} (h : restOk r) :
    parseDigits acc r = (acc, r) := by
  cases r with
  | nil => rfl
  | cons c t =>
    rw [parseDigits, if_neg (h c rfl)]

theorem parseDigits_natDump (n : Nat) :
    ∀ acc rest, parseDigits acc (natDump n ++ rest) =
      parseDigits (acc * 10 ^ (natDump n).length + n) rest := by
  induction n using Nat.strong_induction_on with
  | _ n ih =>
    intro acc rest
    by_cases hn : n < 10
    · rw [natDump_eq, if_pos hn]
      simp only [List.cons_append, List.nil_append, List.length_cons, List.length_nil]
      rw [parseDigits, if_pos (digitChar_bounds' hn), digitChar_toNat' hn]
      norm_num
    · have h2 : natDump n = natDump (n / 10) ++ [Nat.digitChar (n % 10)] := by
        rw [natDump_eq, if_neg hn]
      rw [h2, List.append_assoc]
      rw [ih (n / 10) (by omega)]
      simp only [List.cons_append, List.nil_append]
      rw [parseDigits, if_pos (digitChar_bounds' (by omega)), digitChar_toNat' (by omega)]
      simp only [List.length_append, List.length_cons, List.length_nil]
      congr 1
      have hp : (10 : Nat) ^ ((natDump (n / 10)).length + (0 + 1)) =
          10 ^ (natDump (n / 10)).length * 10 := by ring
      rw [hp]
      generalize (10 : Nat) ^ (natDump (n / 10)).length = X
      have hm : acc * (X * 10) = acc * X * 10 := by ring
      rw [hm]
      omega

theorem natDump_zero : natDump 0 = ['0'] := by
  rfl

theorem digitChar_pos_lb (d : Fin 10) (hd : 1 ≤ d.val) : '1' ≤ Nat.digitChar d.val := by
  revert d; decide

theorem natDump_head_pos : ∀ {n : Nat}, 1 ≤ n →
    ∃ c t, natDump n = c :: t ∧ '1' ≤ c ∧ c ≤ '9' := by
  intro n
  induction n using Nat.strong_induction_on with
  | _ n ih =>
    intro hn
    by_cases h : n < 10
    · exact ⟨Nat.digitChar n, [], by rw [natDump_eq, if_pos h],
        digitChar_pos_lb ⟨n, h⟩ hn, (digitChar_bounds' h).2⟩
    · obtain ⟨c, t, hct, h1, h9⟩ := ih (n / 10) (by omega) (by omega)
      refine ⟨c, t ++ [Nat.digitChar (n % 10)], ?_, h1, h9⟩
      rw [natDump_eq, if_neg h, hct]
      rfl

theorem parseNatTok_natDump (n : Nat) {rest : List Char} (h : restOk rest) :
    parseNatTok (natDump n ++ rest) = some (n, rest) := by
  rcases Nat.eq_zero_or_pos n with h0 | hpos
  · subst h0
    rw [natDump_zero]
    simp only [List.cons_append, List.nil_append]
    rw [parseNatTok, if_pos rfl]
  · obtain ⟨c, t, hct, h1, h9⟩ := natDump_head_pos hpos
    have hz : ¬ c = '0' := by
      intro hc
      subst hc
      exact absurd h1 (by decide)
    have hd : '1' ≤ c ∧ c ≤ '9' := ⟨h1, h9⟩
    rw [hct]
    simp only [List.cons_append]
    rw [parseNatTok, if_neg hz, if_pos hd]
    have step : parseDigits 0 (c :: (t ++ rest)) = parseDigits (c.toNat - 48) (t ++ rest) := by
      rw [parseDigits,
        if_pos ⟨le_trans (by decide : ('0' : Char) ≤ '1') h1, h9⟩]
      norm_num
    rw [← step]
    show some (parseDigits 0 ((c :: t) ++ rest)) = some (n, rest)
    rw [← hct, parseDigits_natDump n 0 rest]
    simp only [Nat.zero_mul, Nat.zero_add]
    rw [parseDigits_stop n h]

theorem natDump_head_digit (n : Nat) :
    ∃ c t, natDump n = c :: t ∧ '0' ≤ c ∧ c ≤ '9' := by
  rcases Nat.eq_zero_or_pos n with h0 | hpos
  · subst h0; exact ⟨'0', [], natDump_zero, by decide, by decide⟩
  · obtain ⟨c, t, hct, h1, h9⟩ := natDump_head_pos hpos
    exact ⟨c, t, hct, le_trans (by decide) h1, h9⟩

theorem parseIntTok_intDump (i : Int) {rest : List Char} (h : restOk rest) :
    parseIntTok (intDump i ++ rest) = some (i, rest) := by
  by_cases hneg : i < 0
  · rw [intDump, if_pos hneg]
    simp only [List.cons_append]
    rw [parseIntTok]
    rw [if_pos (by rfl)]
    show (parseNatTok (natDump (-i).toNat ++ rest)).map _ = _
    rw [parseNatTok_natDump _ h]
    show some (-((-i).toNat : Int), rest) = some (i, rest)
    have : -((-i).toNat : Int) = i := by omega
    rw [this]
  · rw [intDump, if_neg hneg]
    obtain ⟨c, t, hct, h0, h9⟩ := natDump_head_digit i.toNat
    have hm : ¬ c = '-' := by
      intro hc
      subst hc
      exact absurd h0 (by decide)
    rw [parseIntTok]
    rw [hct]
    simp only [List.cons_append, List.head?_cons]
    rw [if_neg (by simpa using hm)]
    show (parseNatTok ((c :: t) ++ rest)).map _ = _
    rw [← hct, parseNatTok_natDump _ h]
    show some ((i.toNat : Int), rest) = some (i, rest)
    have : (i.toNat : Int) = i := by omega
    rw [this]

theorem char_le_iff_toNat {a b : Char} : a ≤ b ↔ a.toNat ≤ b.toNat := by
  rw [Char.le_def, UInt32.le_def]
  exact Iff.rfl

theorem char_ne_of_toNat_ne {a b : Char} (h : a.toNat ≠ b.toNat) : a ≠ b := by
  intro he
  exact h (congrArg Char.toNat he)

/-- The first character that `dumps` emits for any value. -/
theorem dumps_head (j : JVal) :
    ∃ c t, dumps j = c :: t ∧
      (c = 'n' ∨ c = 't' ∨ c = 'f' ∨ c = '"' ∨ c = '[' ∨ c = '{' ∨
       c = '-' ∨ ('0' ≤ c ∧ c ≤ '9')) := by
  cases j with
  | null => exact ⟨'n', _, rfl, by simp⟩
  | bool b => cases b with
    | true => exact ⟨'t', _, rfl, by simp⟩
    | false => exact ⟨'f', _, rfl, by simp⟩
  | num i =>
    by_cases h : i < 0
    · exact ⟨'-', _, by rw [dumps, intDump, if_pos h], by simp⟩
    · obtain ⟨c, t, hct, h0, h9⟩ := natDump_head_digit i.toNat
      exact ⟨c, t, by rw [dumps, intDump, if_neg h, hct], by tauto⟩
  | str s => exact ⟨'"', _, rfl, by simp⟩
  | arr l => exact ⟨'[', _, rfl, by simp⟩
  | obj l => exact ⟨'{', _, rfl, by simp⟩

/-- The characters opening a serialized value are never whitespace, and never
a closing bracket, comma or colon. -/
theorem dumps_head_facts {c : Char}
    (h : c = 'n' ∨ c = 't' ∨ c = 'f' ∨ c = '"' ∨ c = '[' ∨ c = '{' ∨
         c = '-' ∨ ('0' ≤ c ∧ c ≤ '9')) :
    ¬(c = ' ' ∨ c = '\t' ∨ c = '\n' ∨ c = '\r') ∧
      c ≠ ']' ∧ c ≠ '}' ∧ c ≠ ',' ∧ c ≠ ':' := by
  rcases h with rfl | rfl | rfl | rfl | rfl | rfl | rfl | ⟨h0, h9⟩
  · exact ⟨by decide, by decide, by decide, by decide, by decide⟩
  · exact ⟨by decide, by decide, by decide, by decide, by decide⟩
  · exact ⟨by decide, by decide, by decide, by decide, by decide⟩
  · exact ⟨by decide, by decide, by decide, by decide, by decide⟩
  · exact ⟨by decide, by decide, by decide, by decide, by decide⟩
  · exact ⟨by decide, by decide, by decide, by decide, by decide⟩
  · exact ⟨by decide, by decide, by decide, by decide, by decide⟩
  · have h0' : 48 ≤ c.toNat := char_le_iff_toNat.mp h0
    have h9' : c.toNat ≤ 57 := char_le_iff_toNat.mp h9
    refine ⟨?_, ?_, ?_, ?_, ?_⟩
    · rintro (rfl | rfl | rfl | rfl) <;> exact absurd h0' (by decide)
    · exact char_ne_of_toNat_ne (by have : (']' : Char).toNat = 93 := rfl; omega)
    · exact char_ne_of_toNat_ne (by have : ('}' : Char).toNat = 125 := rfl; omega)
    · exact char_ne_of_toNat_ne (by have : (',' : Char).toNat = 44 := rfl; omega)
    · exact char_ne_of_toNat_ne (by have : (':' : Char).toNat = 58 := rfl; omega)

/-- Taking `k+1` characters from a list with a known distinct head cannot give
a list with a different head. -/
theorem take_cons_ne {c c' : Char} (h : c ≠ c') (x : List Char) (k : Nat)
    (ys : List Char) : ¬ ((c :: x).take (k + 1) = c' :: ys) := by
  simp [List.take_succ_cons, h]

theorem skipWs_dumps (j : JVal) (rest : List Char) :
    skipWs (dumps j ++ rest) = dumps j ++ rest := by
  obtain ⟨c, t, hct, hc⟩ := dumps_head j
  rw [hct]
  simp only [List.cons_append]
  exact skipWs_notWs (dumps_head_facts hc).1 _

theorem parseVal_space (f : Nat) (s : List Char) :
    parseVal f (' ' :: s) = parseVal f s := by
  cases f with
  | zero => rfl
  | succ f => rw [parseVal, parseVal, skipWs_space]

theorem parseItems_space (f : Nat) (s : List Char) :
    parseItems f (' ' :: s) = parseItems f s := by
  cases f with
  | zero => rfl
  | succ f => rw [parseItems, parseItems, parseVal_space]

theorem parseMembers_space (f : Nat) (s : List Char) :
    parseMembers f (' ' :: s) = parseMembers f s := by
  cases f with
  | zero => rfl
  | succ f => rw [parseMembers, parseMembers, skipWs_space]

theorem roundVal_null (f : Nat) (rest : List Char) :
    parseVal (f + 1) (dumps .null ++ rest) = some (.null, rest) := by
  rw [dumps]
  simp [parseVal, skipWs]

theorem roundVal_bool (b : Bool) (f : Nat) (rest : List Char) :
    parseVal (f + 1) (dumps (.bool b) ++ rest) = some (.bool b, rest) := by
  cases b <;> (rw [dumps]; simp [parseVal, skipWs])

theorem roundVal_str (s : String) (f : Nat) (rest : List Char) :
    parseVal (f + 1) (dumps (.str s) ++ rest) = some (.str s, rest) := by
  rw [dumps]
  simp only [List.cons_append, List.append_assoc, List.nil_append]
  rw [parseVal]
  simp [skipWs, parseStrBody_escList]

theorem roundVal_arrNil (f : Nat) (rest : List Char) :
    parseVal (f + 1) (dumps (.arr []) ++ rest) = some (.arr [], rest) := by
  rw [dumps, dumpsItems]
  simp only [List.cons_append, List.append_assoc, List.nil_append]
  rw [parseVal]
  simp [skipWs]

theorem roundVal_objNil (f : Nat) (rest : List Char) :
    parseVal (f + 1) (dumps (.obj []) ++ rest) = some (.obj [], rest) := by
  rw [dumps, dumpsMembers]
  simp only [List.cons_append, List.append_assoc, List.nil_append]
  rw [parseVal]
  simp [skipWs]

theorem take_ne_cons_of_head {c c' : Char} (h : c ≠ c') (x ys : List Char) {n : Nat}
    (hn : n ≠ 0) : ¬ ((c :: x).take n = c' :: ys) := by
  cases n with
  | zero => exact absurd rfl hn
  | succ k => simp [List.take_succ_cons, h]

theorem roundVal_num (i : Int) (f : Nat) {rest : List Char} (hrest : restOk rest) :
    parseVal (f + 1) (dumps (.num i) ++ rest) = some (.num i, rest) := by
  by_cases hneg : i < 0
  · rw [dumps, intDump, if_pos hneg]
    simp only [List.cons_append]
    rw [parseVal]
    simp [skipWs]
    have h1 : ('-' :: (natDump (-i).toNat ++ rest)) = intDump i ++ rest := by
      rw [intDump, if_pos hneg]; rfl
    rw [h1, parseIntTok_intDump i hrest]
  · have hint : intDump i = natDump i.toNat := by rw [intDump, if_neg hneg]
    obtain ⟨c, t, hct, h0, h9⟩ := natDump_head_digit i.toNat
    have h0' : 48 ≤ c.toNat := char_le_iff_toNat.mp h0
    have h9' : c.toNat ≤ 57 := char_le_iff_toNat.mp h9
    have hws : ¬(c = ' ' ∨ c = '\t' ∨ c = '\n' ∨ c = '\r') := by
      rintro (rfl | rfl | rfl | rfl) <;> exact absurd h0' (by decide)
    have hcn : ¬ c = 'n' := char_ne_of_toNat_ne
      (by have : ('n' : Char).toNat = 110 := rfl; omega)
    have hcT : ¬ c = 't' := char_ne_of_toNat_ne
      (by have : ('t' : Char).toNat = 116 := rfl; omega)
    have hcf : ¬ c = 'f' := char_ne_of_toNat_ne
      (by have : ('f' : Char).toNat = 102 := rfl; omega)
    have hq1 : ¬ c = '"' := char_ne_of_toNat_ne
      (by have : ('"' : Char).toNat = 34 := rfl; omega)
    have hq2 : ¬ c = '[' := char_ne_of_toNat_ne
      (by have : ('[' : Char).toNat = 91 := rfl; omega)
    have hq3 : ¬ c = '{' := char_ne_of_toNat_ne
      (by have : ('{' : Char).toNat = 123 := rfl; omega)
    rw [dumps, hint, hct]
    simp only [List.cons_append]
    rw [parseVal]
    rw [skipWs_notWs hws]
    simp [hcn, hcT, hcf, hq1, hq2, hq3]
    have h1 : (c :: (t ++ rest)) = intDump i ++ rest := by
      rw [hint, hct]; rfl
    rw [h1, parseIntTok_intDump i hrest]

theorem jfuel_pos (j : JVal) : 1 ≤ jfuel j := by
  cases j <;> simp [jfuel]

theorem lfuel_pos {l : List JVal} (h : l ≠ []) : 1 ≤ lfuel l := by
  cases l with
  | nil => exact absurd rfl h
  | cons e t => simp [lfuel]

theorem mfuel_pos {m : List (String × JVal)} (h : m ≠ []) : 1 ≤ mfuel m := by
  cases m with
  | nil => exact absurd rfl h
  | cons e t => obtain ⟨k, v⟩ := e; simp [mfuel]

theorem dumpsItems_head (l : List JVal) (h : l ≠ []) :
    ∃ c t, dumpsItems l = c :: t ∧
      (c = 'n' ∨ c = 't' ∨ c = 'f' ∨ c = '"' ∨ c = '[' ∨ c = '{' ∨
       c = '-' ∨ ('0' ≤ c ∧ c ≤ '9')) := by
  cases l with
  | nil => exact absurd rfl h
  | cons e t =>
    obtain ⟨c, t', hct, hc⟩ := dumps_head e
    cases t with
    | nil => exact ⟨c, t', by rw [dumpsItems, hct], hc⟩
    | cons e2 t2 =>
      refine ⟨c, t' ++ ',' :: ' ' :: dumpsItems (e2 :: t2), ?_, hc⟩
      rw [dumpsItems, hct]
      · rfl
      · simp

theorem dumpsMembers_head (k : String) (v : JVal) (t : List (String × JVal)) :
    ∃ t', dumpsMembers ((k, v) :: t) = '"' :: t' := by
  cases t with
  | nil =>
    refine ⟨escList k.data ++ '"' :: ':' :: ' ' :: dumps v, ?_⟩
    rw [dumpsMembers]
    simp
  | cons kv2 t2 =>
    refine ⟨escList k.data ++ '"' :: ':' :: ' ' :: dumps v ++
      ',' :: ' ' :: dumpsMembers (kv2 :: t2), ?_⟩
    rw [dumpsMembers]
    · simp
    · simp

mutual

theorem roundVal : ∀ (j : JVal) (f : Nat) (rest : List Char), jfuel j ≤ f → restOk rest →
    parseVal f (dumps j ++ rest) = some (j, rest)
  | .null, f, rest, hf, _ => by
    obtain ⟨f', rfl⟩ : ∃ f', f = f' + 1 := ⟨f - 1, by have := jfuel_pos .null; omega⟩
    exact roundVal_null f' rest
  | .bool b, f, rest, hf, _ => by
    obtain ⟨f', rfl⟩ : ∃ f', f = f' + 1 := ⟨f - 1, by have := jfuel_pos (.bool b); omega⟩
    exact roundVal_bool b f' rest
  | .num i, f, rest, hf, hrest => by
    obtain ⟨f', rfl⟩ : ∃ f', f = f' + 1 := ⟨f - 1, by have := jfuel_pos (.num i); omega⟩
    exact roundVal_num i f' hrest
  | .str s, f, rest, hf, _ => by
    obtain ⟨f', rfl⟩ : ∃ f', f = f' + 1 := ⟨f - 1, by have := jfuel_pos (.str s); omega⟩
    exact roundVal_str s f' rest
  | .arr [], f, rest, hf, _ => by
    obtain ⟨f', rfl⟩ : ∃ f', f = f' + 1 := ⟨f - 1, by have := jfuel_pos (.arr []); omega⟩
    exact roundVal_arrNil f' rest
  | .arr (e :: t), f, rest, hf, _ => by
    obtain ⟨f', rfl⟩ : ∃ f', f = f' + 1 :=
      ⟨f - 1, by have := jfuel_pos (.arr (e :: t)); omega⟩
    have hfl : lfuel (e :: t) ≤ f' := by rw [jfuel] at hf; omega
    obtain ⟨c0, t0, hct0, hc0⟩ := dumpsItems_head (e :: t) (by simp)
    have hfacts := dumps_head_facts hc0
    rw [dumps]
    simp only [List.cons_append, List.append_assoc, List.nil_append]
    rw [parseVal]
    simp [skipWs]
    rw [hct0]
    simp only [List.cons_append]
    rw [skipWs_notWs hfacts.1]
    simp only [List.head?_cons, List.tail_cons]
    rw [if_neg (by simp [hfacts.2.1])]
    have hback : c0 :: (t0 ++ ']' :: rest) = dumpsItems (e :: t) ++ ']' :: rest := by
      rw [hct0]; simp
    rw [hback, roundItems (e :: t) f' rest (by simp) hfl]
    rfl
  | .obj [], f, rest, hf, _ => by
    obtain ⟨f', rfl⟩ : ∃ f', f = f' + 1 := ⟨f - 1, by have := jfuel_pos (.obj []); omega⟩
    exact roundVal_objNil f' rest
  | .obj ((k, v) :: t), f, rest, hf, _ => by
    obtain ⟨f', rfl⟩ : ∃ f', f = f' + 1 :=
      ⟨f - 1, by have := jfuel_pos (.obj ((k, v) :: t)); omega⟩
    have hfm : mfuel ((k, v) :: t) ≤ f' := by rw [jfuel] at hf; omega
    obtain ⟨t', hmh⟩ := dumpsMembers_head k v t
    rw [dumps]
    simp only [List.cons_append, List.append_assoc, List.nil_append]
    rw [parseVal]
    simp [skipWs]
    rw [hmh]
    simp only [List.cons_append]
    rw [skipWs_notWs (by decide)]
    simp only [List.head?_cons, List.tail_cons]
    rw [if_neg (by decide)]
    have hback : ('"' : Char) :: (t' ++ '}' :: rest) =
        dumpsMembers ((k, v) :: t) ++ '}' :: rest := by
      rw [hmh]; simp
    rw [hback, roundMembers ((k, v) :: t) f' rest (by simp) hfm]
    rfl
termination_by j _ _ _ _ => sizeOf j
decreasing_by all_goals (first | omega | (simp_wf; omega) | (simp_wf; simp; omega) | (simp; omega) | decreasing_tactic)

theorem roundItems : ∀ (l : List JVal) (f : Nat) (rest : List Char), l ≠ [] → lfuel l ≤ f →
    parseItems f (dumpsItems l ++ ']' :: rest) = some (l, rest)
  | [], _, _, h, _ => absurd rfl h
  | [e], f, rest, _, hf => by
    obtain ⟨f', rfl⟩ : ∃ f', f = f' + 1 :=
      ⟨f - 1, by have := lfuel_pos (l := [e]) (by simp); omega⟩
    rw [lfuel] at hf
    have h1 := le_max_left (jfuel e) (lfuel ([] : List JVal))
    have hfe : jfuel e ≤ f' := by omega
    rw [dumpsItems, parseItems]
    rw [roundVal e f' (']' :: rest) hfe (restOk_cons (by decide) _)]
    simp [skipWs]
  | e :: e2 :: t2, f, rest, _, hf => by
    obtain ⟨f', rfl⟩ : ∃ f', f = f' + 1 :=
      ⟨f - 1, by have := lfuel_pos (l := e :: e2 :: t2) (by simp); omega⟩
    rw [lfuel] at hf
    have h1 := le_max_left (jfuel e) (lfuel (e2 :: t2))
    have h2 := le_max_right (jfuel e) (lfuel (e2 :: t2))
    have hfe : jfuel e ≤ f' := by omega
    have hft : lfuel (e2 :: t2) ≤ f' := by omega
    have hdi : dumpsItems (e :: e2 :: t2) = dumps e ++ ',' :: ' ' :: dumpsItems (e2 :: t2) := by
      rw [dumpsItems]
      simp
    rw [hdi]
    simp only [List.cons_append, List.append_assoc]
    rw [parseItems]
    rw [roundVal e f' _ hfe (restOk_cons (by decide) _)]
    simp [skipWs]
    rw [parseItems_space, roundItems (e2 :: t2) f' rest (by simp) hft]
termination_by l _ _ _ _ => sizeOf l
decreasing_by all_goals (first | omega | (simp_wf; omega) | (simp_wf; simp; omega) | (simp; omega) | decreasing_tactic)

theorem roundMembers : ∀ (m : List (String × JVal)) (f : Nat) (rest : List Char), m ≠ [] →
    mfuel m ≤ f → parseMembers f (dumpsMembers m ++ '}' :: rest) = some (m, rest)
  | [], _, _, h, _ => absurd rfl h
  | [(k, v)], f, rest, _, hf => by
    obtain ⟨f', rfl⟩ : ∃ f', f = f' + 1 :=
      ⟨f - 1, by have := mfuel_pos (m := [(k, v)]) (by simp); omega⟩
    rw [mfuel] at hf
    have h1 := le_max_left (jfuel v) (mfuel ([] : List (String × JVal)))
    have hfv : jfuel v ≤ f' := by omega
    rw [dumpsMembers]
    simp only [List.cons_append, List.append_assoc, List.nil_append]
    rw [parseMembers]
    rw [skipWs_notWs (by decide)]
    simp only [List.head?_cons, List.tail_cons, if_true]
    rw [parseStrBody_escList]
    simp [skipWs]
    rw [parseVal_space, roundVal v f' ('}' :: rest) hfv (restOk_cons (by decide) _)]
    simp [skipWs]
  | (k, v) :: kv2 :: t2, f, rest, _, hf => by
    obtain ⟨f', rfl⟩ : ∃ f', f = f' + 1 :=
      ⟨f - 1, by have := mfuel_pos (m := (k, v) :: kv2 :: t2) (by simp); omega⟩
    rw [mfuel] at hf
    have h1 := le_max_left (jfuel v) (mfuel (kv2 :: t2))
    have h2 := le_max_right (jfuel v) (mfuel (kv2 :: t2))
    have hfv : jfuel v ≤ f' := by omega
    have hft : mfuel (kv2 :: t2) ≤ f' := by omega
    have hdm : dumpsMembers ((k, v) :: kv2 :: t2) =
        '"' :: escList k.data ++ '"' :: ':' :: ' ' :: dumps v ++
        ',' :: ' ' :: dumpsMembers (kv2 :: t2) := by
      rw [dumpsMembers]
      simp
    rw [hdm]
    simp only [List.cons_append, List.append_assoc, List.nil_append]
    rw [parseMembers]
    rw [skipWs_notWs (by decide)]
    simp only [List.head?_cons, List.tail_cons, if_true]
    rw [parseStrBody_escList]
    simp [skipWs]
    rw [parseVal_space, roundVal v f' _ hfv (restOk_cons (by decide) _)]
    simp [skipWs]
    rw [parseMembers_space, roundMembers (kv2 :: t2) f' rest (by simp) hft]
termination_by m _ _ _ _ => sizeOf m
decreasing_by all_goals (first | omega | (simp_wf; omega) | (simp_wf; simp; omega) | (simp; omega) | decreasing_tactic)

end

mutual

theorem jfuel_le_dumps : ∀ j : JVal, jfuel j ≤ (dumps j).length
  | .null => by simp [jfuel, dumps]
  | .bool b => by cases b <;> simp [jfuel, dumps]
  | .num i => by
    obtain ⟨c, t, hct, _⟩ := dumps_head (.num i)
    rw [jfuel, hct]
    simp
  | .str s => by rw [jfuel, dumps]; simp
  | .arr l => by
    rw [jfuel, dumps]
    have := lfuel_le_dumpsItems l
    simp only [List.length_cons, List.length_append, List.length_nil]
    omega
  | .obj m => by
    rw [jfuel, dumps]
    have := mfuel_le_dumpsMembers m
    simp only [List.length_cons, List.length_append, List.length_nil]
    omega

theorem lfuel_le_dumpsItems : ∀ l : List JVal, lfuel l ≤ (dumpsItems l).length + 1
  | [] => by simp [lfuel]
  | [j] => by
    rw [lfuel, dumpsItems]
    have := jfuel_le_dumps j
    have h2 : lfuel ([] : List JVal) = 0 := rfl
    rw [h2]
    simp only [Nat.max_zero]
    omega
  | j :: j2 :: t2 => by
    have h1 := jfuel_le_dumps j
    have h2 := lfuel_le_dumpsItems (j2 :: t2)
    have h3 := le_max_left (jfuel j) (lfuel (j2 :: t2))
    have hdi : dumpsItems (j :: j2 :: t2) = dumps j ++ ',' :: ' ' :: dumpsItems (j2 :: t2) := by
      rw [dumpsItems]
      simp
    rw [lfuel, hdi]
    simp only [List.length_append, List.length_cons]
    have hm : max (jfuel j) (lfuel (j2 :: t2)) ≤ max ((dumps j).length)
        ((dumpsItems (j2 :: t2)).length + 1) := max_le_max h1 h2
    have hmle := max_le (le_refl ((dumps j).length)) (le_refl ((dumps j).length))
    have := le_max_left ((dumps j).length) ((dumpsItems (j2 :: t2)).length + 1)
    have := le_max_right ((dumps j).length) ((dumpsItems (j2 :: t2)).length + 1)
    have hmax : max ((dumps j).length) ((dumpsItems (j2 :: t2)).length + 1) ≤
        (dumps j).length + (dumpsItems (j2 :: t2)).length + 1 := by omega
    omega

theorem mfuel_le_dumpsMembers : ∀ m : List (String × JVal), mfuel m ≤ (dumpsMembers m).length + 1
  | [] => by simp [mfuel]
  | [(k, v)] => by
    rw [mfuel, dumpsMembers]
    have := jfuel_le_dumps v
    have h2 : mfuel ([] : List (String × JVal)) = 0 := rfl
    rw [h2]
    simp only [Nat.max_zero, List.length_cons, List.length_append]
    omega
  | (k, v) :: kv2 :: t2 => by
    have h1 := jfuel_le_dumps v
    have h2 := mfuel_le_dumpsMembers (kv2 :: t2)
    have hdm : dumpsMembers ((k, v) :: kv2 :: t2) =
        '"' :: escList k.data ++ '"' :: ':' :: ' ' :: dumps v ++
        ',' :: ' ' :: dumpsMembers (kv2 :: t2) := by
      rw [dumpsMembers]
      simp
    rw [mfuel, hdm]
    simp only [List.length_append, List.length_cons]
    have hmax : max (jfuel v) (mfuel (kv2 :: t2)) ≤ max ((dumps v).length)
        ((dumpsMembers (kv2 :: t2)).length + 1) := max_le_max h1 h2
    have := le_max_left ((dumps v).length) ((dumpsMembers (kv2 :: t2)).length + 1)
    have := le_max_right ((dumps v).length) ((dumpsMembers (kv2 :: t2)).length + 1)
    have hm2 : max ((dumps v).length) ((dumpsMembers (kv2 :: t2)).length + 1) ≤
        (dumps v).length + (dumpsMembers (kv2 :: t2)).length + 1 := by omega
    omega

end

/-- The serializer-parser round trip: `loads (dumps j) = some j` for every
JSON value in the model. -/
theorem loads_dumps (j : JVal) : loads (dumps j) = some j := by
  rw [loads]
  have h1 : jfuel j ≤ (dumps j).length + 1 := le_trans (jfuel_le_dumps j) (by omega)
  have h2 := roundVal j ((dumps j).length + 1) [] h1 restOk_nil
  rw [List.append_nil] at h2
  rw [h2]
  simp [skipWs]

/-- Strong induction on the length of a character list. -/
theorem length_induction {P : List Char → Prop}
    (ih : ∀ s : List Char, (∀ t : List Char, t.length < s.length → P t) → P s) :
    ∀ s, P s
  | s => ih s (fun t _ => length_induction ih t)
termination_by s => s.length
decreasing_by assumption

theorem uuidMatch_length {w : List Char} (h : uuidMatch w = true) : w.length = 36 := by
  simp only [uuidMatch, decide_eq_true_eq] at h
  have := congrArg List.length h
  simpa using this

theorem uuidMatch_congr {x y : List Char} (h : x.map classOf = y.map classOf) :
    uuidMatch x = uuidMatch y := by
  simp only [uuidMatch, h]

theorem uuidMatch_no_other {w : List Char} {c : Char} (hc : c ∈ w)
    (ho : classOf c = .other) : uuidMatch w = false := by
  by_contra h
  simp only [Bool.not_eq_false] at h
  simp only [uuidMatch, decide_eq_true_eq] at h
  have hm : CClass.other ∈ w.map classOf := by
    rw [← ho]
    exact List.mem_map_of_mem classOf hc
  rw [h] at hm
  revert hm
  decide

theorem uuidMatch_has_dash {w : List Char} (h : uuidMatch w = true) :
    ∃ c ∈ w, classOf c = .dash := by
  simp only [uuidMatch, decide_eq_true_eq] at h
  have hm : CClass.dash ∈ uuidTemplate := by decide
  rw [← h] at hm
  obtain ⟨c, hc, hcc⟩ := List.mem_map.mp hm
  exact ⟨c, hc, hcc⟩

theorem lookup_some_mem {M : List (List Char × List Char)} {k v : List Char}
    (h : M.lookup k = some v) : ∃ p ∈ M, p.2 = v := by
  induction M with
  | nil => simp [List.lookup] at h
  | cons p t ihm =>
    obtain ⟨a, b⟩ := p
    cases hk : (k == a) with
    | true =>
      rw [List.lookup, hk] at h
      simp only [Option.some.injEq] at h
      exact ⟨(a, b), by simp, h⟩
    | false =>
      rw [List.lookup, hk] at h
      obtain ⟨q, hq, hqv⟩ := ihm h
      exact ⟨q, by simp [hq], hqv⟩

theorem lookup_eq_none_of_ne {M : List (List Char × List Char)} {k : List Char}
    (h : ∀ q ∈ M, k ≠ q.1) : M.lookup k = none := by
  induction M with
  | nil => rfl
  | cons p t ihm =>
    obtain ⟨a, b⟩ := p
    have hka : (k == a) = false := by
      simp only [beq_eq_false_iff_ne, ne_eq]
      exact h (a, b) (by simp)
    rw [List.lookup, hka]
    exact ihm (fun q hq => h q (List.mem_cons_of_mem _ hq))

/-- Substituting with the empty mapping is the identity: every match is
replaced by itself. -/
theorem reSub_empty (s : List Char) : reSub [] s = s := by
  induction s using length_induction with
  | _ s IH =>
    cases s with
    | nil => rw [reSub_nil]
    | cons c cs =>
      rw [reSub_cons]
      by_cases h : uuidMatch ((c :: cs).take 36)
      · rw [if_pos h]
        show ((c :: cs).take 36) ++ reSub [] ((c :: cs).drop 36) = c :: cs
        rw [IH _ (by simp only [List.length_drop, List.length_cons]; omega)]
        exact List.take_append_drop 36 (c :: cs)
      · rw [if_neg h, IH cs (by simp)]

/-- A string shorter than a UUID is left unchanged. -/
theorem reSub_short (M : List (List Char × List Char)) :
    ∀ s : List Char, s.length < 36 → reSub M s = s := by
  intro s
  induction s using length_induction with
  | _ s IH =>
    intro h
    cases s with
    | nil => rw [reSub_nil]
    | cons c cs =>
      rw [reSub_cons]
      have hm : ¬ uuidMatch ((c :: cs).take 36) = true := by
        intro hmm
        have hlen := uuidMatch_length hmm
        have hle : ((c :: cs).take 36).length ≤ (c :: cs).length := by
          rw [List.length_take]
          exact min_le_right _ _
        simp only [List.length_cons] at h hle
        omega
      rw [if_neg hm, IH cs (by simp) (by simp at h ⊢; omega)]

/-- A string with no hyphen-class character is left unchanged. -/
theorem reSub_dashFree (M : List (List Char × List Char)) :
    ∀ s : List Char, (∀ c ∈ s, classOf c ≠ .dash) → reSub M s = s := by
  intro s
  induction s using length_induction with
  | _ s IH =>
    intro h
    cases s with
    | nil => rw [reSub_nil]
    | cons c cs =>
      rw [reSub_cons]
      have hm : ¬ uuidMatch ((c :: cs).take 36) = true := by
        intro hmm
        obtain ⟨d, hd, hdd⟩ := uuidMatch_has_dash hmm
        exact h d (List.take_subset _ _ hd) hdd
      rw [if_neg hm, IH cs (by simp) (fun d hd => h d (List.mem_cons_of_mem _ hd))]

/-- Substitution distributes over an append whose right part starts with an
`other`-class character (no match window can cross the boundary). -/
theorem reSub_append (M : List (List Char × List Char)) {b : List Char}
    (hb : ∀ c, b.head? = some c → classOf c = .other) :
    ∀ a : List Char, reSub M (a ++ b) = reSub M a ++ reSub M b := by
  intro a
  induction a using length_induction with
  | _ a IH =>
    cases a with
    | nil =>
      have h0 : reSub M [] = [] := rfl
      rw [List.nil_append, h0, List.nil_append]
    | cons c cs =>
      by_cases hlen : 36 ≤ (c :: cs).length
      · have htake : (c :: (cs ++ b)).take 36 = (c :: cs).take 36 := by
          rw [← List.cons_append, List.take_append_of_le_length hlen]
        have hdrop : (c :: (cs ++ b)).drop 36 = (c :: cs).drop 36 ++ b := by
          rw [← List.cons_append, List.drop_append_of_le_length hlen]
        rw [show (c :: cs) ++ b = c :: (cs ++ b) from rfl]
        rw [reSub_cons, htake, hdrop]
        by_cases h : uuidMatch ((c :: cs).take 36)
        · rw [if_pos h]
          conv_rhs => rw [reSub_cons, if_pos h]
          rw [IH _ (by simp only [List.length_drop, List.length_cons]; omega)]
          rw [List.append_assoc]
        · rw [if_neg h]
          conv_rhs => rw [reSub_cons, if_neg h]
          rw [IH cs (by simp)]
          rfl
      · cases b with
        | nil =>
          have h0 : reSub M [] = [] := rfl
          rw [List.append_nil, h0, List.append_nil]
        | cons d b' =>
          have hd : classOf d = .other := hb d rfl
          have hnm1 : uuidMatch ((c :: (cs ++ d :: b')).take 36) = false := by
            apply uuidMatch_no_other (c := d) _ hd
            rw [← List.cons_append, List.take_append_eq_append_take]
            apply List.mem_append_right
            have : 1 ≤ 36 - (c :: cs).length := by omega
            cases h36 : 36 - (c :: cs).length with
            | zero => omega
            | succ k => simp [List.take_succ_cons]
          have hnm2 : uuidMatch ((c :: cs).take 36) = false := by
            by_contra hcon
            simp only [Bool.not_eq_false] at hcon
            have := uuidMatch_length hcon
            have hle : ((c :: cs).take 36).length ≤ (c :: cs).length := by
              rw [List.length_take]
              exact min_le_right _ _
            omega
          rw [show (c :: cs) ++ d :: b' = c :: (cs ++ d :: b') from rfl]
          rw [reSub_cons, if_neg (by rw [hnm1]; exact Bool.false_ne_true)]
          conv_rhs => rw [reSub_cons, if_neg (by rw [hnm2]; exact Bool.false_ne_true)]
          rw [IH cs (by simp)]
          rfl

/-- Substitution preserves the character-class string when all mapping values
are UUID-shaped. -/
theorem reSub_classMap (M : List (List Char × List Char))
    (hM : ∀ p ∈ M, p.2.map classOf = uuidTemplate) :
    ∀ s : List Char, (reSub M s).map classOf = s.map classOf := by
  intro s
  induction s using length_induction with
  | _ s IH =>
    cases s with
    | nil =>
      have h0 : reSub M [] = [] := rfl
      rw [h0]
    | cons c cs =>
      rw [reSub_cons]
      by_cases h : uuidMatch ((c :: cs).take 36)
      · rw [if_pos h]
        have hdl : ((c :: cs).drop 36).length < (c :: cs).length := by
          simp only [List.length_drop, List.length_cons]; omega
        have htm : ((c :: cs).take 36).map classOf = uuidTemplate := by
          simpa [uuidMatch] using h
        conv_rhs => rw [← List.take_append_drop 36 (c :: cs)]
        rw [List.map_append, List.map_append]
        cases hl : M.lookup ((c :: cs).take 36) with
        | some v =>
          simp only [hl]
          obtain ⟨p, hp, hpv⟩ := lookup_some_mem hl
          rw [IH _ hdl, htm, ← hpv, hM p hp]
        | none =>
          simp only [hl]
          rw [IH _ hdl]
      · rw [if_neg h]
        simp only [List.map_cons]
        rw [IH cs (by simp)]

/-- A full UUID window at the head that is not a key of the mapping passes
through unchanged, and the scan resumes after it. -/
theorem reSub_block (M : List (List Char × List Char)) {w : List Char}
    (hw : uuidMatch w = true) (hnk : M.lookup w = none) (R : List Char) :
    reSub M (w ++ R) = w ++ reSub M R := by
  have hlen : w.length = 36 := uuidMatch_length hw
  cases w with
  | nil => simp at hlen
  | cons c cs =>
    rw [show (c :: cs) ++ R = c :: (cs ++ R) from rfl, reSub_cons]
    have htake : (c :: (cs ++ R)).take 36 = c :: cs := by
      rw [← List.cons_append, List.take_append_of_le_length (by omega),
        List.take_of_length_le (by omega)]
    have hdrop : (c :: (cs ++ R)).drop 36 = R := by
      rw [← List.cons_append, List.drop_append_of_le_length (by omega),
        List.drop_of_length_le (by omega)]
      rfl
    rw [htake, hdrop, if_pos hw]
    simp only [hnk]

/-- Idempotence of the substitution scan when every mapping value is
UUID-shaped and no mapping value is also a mapping key. -/
theorem reSub_idem (M : List (List Char × List Char))
    (hv : ∀ p ∈ M, p.2.map classOf = uuidTemplate)
    (hvk : ∀ p ∈ M, ∀ q ∈ M, p.2 ≠ q.1) :
    ∀ s : List Char, reSub M (reSub M s) = reSub M s := by
  intro s
  induction s using length_induction with
  | _ s IH =>
    cases s with
    | nil =>
      have h0 : reSub M [] = [] := rfl
      rw [h0, h0]
    | cons c cs =>
      have hdl : ((c :: cs).drop 36).length < (c :: cs).length := by
        simp only [List.length_drop, List.length_cons]; omega
      by_cases h : uuidMatch ((c :: cs).take 36)
      · rw [reSub_cons, if_pos h]
        cases hl : M.lookup ((c :: cs).take 36) with
        | some v =>
          simp only [hl]
          obtain ⟨p, hp, hpv⟩ := lookup_some_mem hl
          have hvm : v.map classOf = uuidTemplate := by
            rw [← hpv]; exact hv p hp
          have hvmatch : uuidMatch v = true := by
            simp [uuidMatch, hvm]
          have hvnk : M.lookup v = none := by
            apply lookup_eq_none_of_ne
            intro q hq
            rw [← hpv]
            exact hvk p hp q hq
          rw [reSub_block M hvmatch hvnk]
          rw [IH _ hdl]
        | none =>
          simp only [hl]
          rw [reSub_block M h hl]
          rw [IH _ hdl]
      · rw [reSub_cons, if_neg h]
        rw [reSub_cons]
        have hcls : ((c :: reSub M cs).take 36).map classOf =
            ((c :: cs).take 36).map classOf := by
          rw [List.map_take, List.map_take]
          simp only [List.map_cons]
          rw [reSub_classMap M hv cs]
        rw [if_neg (by rw [uuidMatch_congr hcls]; exact h)]
        rw [IH cs (by simp)]

/-- Escaping is the identity on plain characters. -/
theorem escChar_plain {c : Char} (h : plainChar c = true) : escChar c = [c] := by
  simp only [plainChar, Bool.and_eq_true, Bool.not_eq_true', decide_eq_true_eq,
    decide_eq_false_iff_not] at h
  obtain ⟨⟨⟨h1, h2⟩, h3⟩, h4⟩ := h
  rw [escChar, if_neg h3, if_neg h4, if_neg (by omega), if_neg (by omega),
    if_neg (by omega), if_neg (by omega), if_neg (by omega), if_neg (by omega),
    if_pos h2]

theorem escList_plain {cs : List Char} (h : ∀ c ∈ cs, plainChar c = true) :
    escList cs = cs := by
  induction cs with
  | nil => rfl
  | cons c t ih =>
    rw [escList, escChar_plain (h c (by simp))]
    simp only [List.cons_append, List.nil_append]
    rw [ih (fun d hd => h d (List.mem_cons_of_mem _ hd))]

/-- Every character of the substituted string comes from the original string
or from one of the mapping values. -/
theorem reSub_mem (M : List (List Char × List Char)) :
    ∀ s : List Char, ∀ c ∈ reSub M s, c ∈ s ∨ ∃ p ∈ M, c ∈ p.2 := by
  intro s
  induction s using length_induction with
  | _ s IH =>
    cases s with
    | nil =>
      rw [reSub_nil]
      intro c hc
      simp at hc
    | cons x cs =>
      rw [reSub_cons]
      by_cases h : uuidMatch ((x :: cs).take 36)
      · rw [if_pos h]
        intro c hc
        have hdl : ((x :: cs).drop 36).length < (x :: cs).length := by
          simp only [List.length_drop, List.length_cons]; omega
        rcases List.mem_append.mp hc with hl | hr
        · cases hlook : M.lookup ((x :: cs).take 36) with
          | some v =>
            rw [hlook] at hl
            obtain ⟨p, hp, hpv⟩ := lookup_some_mem hlook
            exact Or.inr ⟨p, hp, hpv ▸ hl⟩
          | none =>
            rw [hlook] at hl
            exact Or.inl (List.take_subset _ _ hl)
        · rcases IH _ hdl c hr with h1 | h2
          · exact Or.inl (List.drop_subset _ _ h1)
          · exact Or.inr h2
      · rw [if_neg h]
        intro c hc
        rcases List.mem_cons.mp hc with rfl | hm
        · exact Or.inl (by simp)
        · rcases IH cs (by simp) c hm with h1 | h2
          · exact Or.inl (List.mem_cons_of_mem _ h1)
          · exact Or.inr h2

/-- Hex- and dash-class characters are plain. -/
theorem plainChar_of_class {c : Char} (h : classOf c ≠ .other) : plainChar c = true := by
  rw [classOf] at h
  by_cases h1 : ('0' ≤ c ∧ c ≤ '9') ∨ ('a' ≤ c ∧ c ≤ 'f')
  · have hq : ('"' : Char).toNat = 34 := rfl
    have hbk : ('\\' : Char).toNat = 92 := rfl
    have e0 : ('0' : Char).toNat = 48 := rfl
    have e9 : ('9' : Char).toNat = 57 := rfl
    have ea : ('a' : Char).toNat = 97 := rfl
    have ef : ('f' : Char).toNat = 102 := rfl
    rcases h1 with ⟨ha, hb2⟩ | ⟨ha, hb2⟩ <;>
      (have h1' := char_le_iff_toNat.mp ha
       have h2' := char_le_iff_toNat.mp hb2
       simp only [plainChar, Bool.and_eq_true, Bool.not_eq_true', decide_eq_true_eq,
         decide_eq_false_iff_not]
       refine ⟨⟨⟨by omega, by omega⟩, char_ne_of_toNat_ne (by omega)⟩,
         char_ne_of_toNat_ne (by omega)⟩)
  · rw [if_neg h1] at h
    by_cases h2 : c = '-'
    · subst h2; decide
    · rw [if_neg h2] at h
      exact absurd rfl h

theorem headOther_nil : headOther [] := by
  intro c h; simp at h

theorem headOther_cons {c : Char} (h : classOf c = .other) (R : List Char) :
    headOther (c :: R) := by
  intro d hd
  simp only [List.head?_cons, Option.some.injEq] at hd
  rw [← hd]
  exact h

theorem uuidMatch_head_hex {c : Char} {w : List Char}
    (h : uuidMatch (c :: w) = true) : classOf c = .hex := by
  simp only [uuidMatch, decide_eq_true_eq, List.map_cons] at h
  have := congrArg List.head? h
  simp only [List.head?_cons] at this
  injection this

/-- The scan steps over any character that is not hex-class (a match window
must start with a hex character). -/
theorem reSub_consNonHex (M : List (List Char × List Char)) {c : Char}
    (h : classOf c ≠ .hex) (s : List Char) : reSub M (c :: s) = c :: reSub M s := by
  rw [reSub_cons]
  have ht : (c :: s).take 36 = c :: s.take 35 := rfl
  rw [if_neg (by rw [ht]; intro hm; exact h (uuidMatch_head_hex hm))]

/-- The scan steps over a run of hex-class characters followed by a
boundary-safe continuation: such a window has no dash, or hits the
continuation's `other`-class head. -/
theorem reSub_hexRun (M : List (List Char × List Char)) {R : List Char}
    (hR : headOther R) :
    ∀ ds : List Char, (∀ c ∈ ds, classOf c = .hex) →
      reSub M (ds ++ R) = ds ++ reSub M R := by
  intro ds
  induction ds with
  | nil => simp
  | cons c ds' ih =>
    intro hds
    have hfail : uuidMatch ((c :: (ds' ++ R)).take 36) = false := by
      by_cases hlen : 36 ≤ (c :: ds').length
      · have htake : (c :: (ds' ++ R)).take 36 = (c :: ds').take 36 := by
          rw [← List.cons_append, List.take_append_of_le_length hlen]
        rw [htake]
        by_contra hcon
        simp only [Bool.not_eq_false] at hcon
        obtain ⟨d, hd, hdd⟩ := uuidMatch_has_dash hcon
        have : classOf d = CClass.hex := hds d (List.take_subset _ _ hd)
        rw [this] at hdd
        exact CClass.noConfusion hdd
      · cases R with
        | nil =>
          by_contra hcon
          simp only [Bool.not_eq_false] at hcon
          have hl := uuidMatch_length hcon
          have hle : ((c :: (ds' ++ [])).take 36).length ≤ (c :: (ds' ++ [])).length := by
            rw [List.length_take]; exact min_le_right _ _
          simp only [List.append_nil] at hle
          simp only [List.append_nil] at hl
          simp only [List.length_cons] at hle hlen
          omega
        | cons r0 R' =>
          apply uuidMatch_no_other (c := r0) _ (hR r0 rfl)
          rw [← List.cons_append, List.take_append_eq_append_take]
          apply List.mem_append_right
          have h1 : 1 ≤ 36 - (c :: ds').length := by
            simp only [List.length_cons] at hlen ⊢
            omega
          cases h36 : 36 - (c :: ds').length with
          | zero => omega
          | succ k => simp [List.take_succ_cons]
    rw [show (c :: ds') ++ R = c :: (ds' ++ R) from rfl, reSub_cons,
      if_neg (by rw [hfail]; exact Bool.false_ne_true),
      ih (fun d hd => hds d (List.mem_cons_of_mem _ hd))]
    simp

theorem digit_class_hex {c : Char} (h0 : '0' ≤ c) (h9 : c ≤ '9') :
    classOf c = .hex := by
  rw [classOf, if_pos (Or.inl ⟨h0, h9⟩)]

theorem natDump_mem_digit : ∀ n : Nat, ∀ c ∈ natDump n, '0' ≤ c ∧ c ≤ '9' := by
  intro n
  induction n using Nat.strong_induction_on with
  | _ n ih =>
    intro c hc
    by_cases h : n < 10
    · rw [natDump_eq, if_pos h] at hc
      simp only [List.mem_singleton] at hc
      subst hc
      exact digitChar_bounds' h
    · rw [natDump_eq, if_neg h] at hc
      rcases List.mem_append.mp hc with h1 | h2
      · exact ih (n / 10) (by omega) c h1
      · simp only [List.mem_singleton] at h2
        subst h2
        exact digitChar_bounds' (by omega)

/-- The scan leaves a serialized integer unchanged (given a boundary-safe
continuation). -/
theorem reSub_intDump (M : List (List Char × List Char)) {R : List Char}
    (hR : headOther R) (i : Int) :
    reSub M (intDump i ++ R) = intDump i ++ reSub M R := by
  have hdig : ∀ c ∈ natDump (if i < 0 then (-i).toNat else i.toNat), classOf c = .hex :=
    fun c hc => digit_class_hex (natDump_mem_digit _ c hc).1 (natDump_mem_digit _ c hc).2
  by_cases h : i < 0
  · rw [intDump, if_pos h]
    rw [show ('-' :: natDump (-i).toNat) ++ R = '-' :: (natDump (-i).toNat ++ R) from rfl]
    rw [reSub_consNonHex M (by decide) _]
    rw [reSub_hexRun M hR _ (by simpa [h] using hdig)]
    simp
  · rw [intDump, if_neg h]
    rw [reSub_hexRun M hR _ (by simpa [h] using hdig)]

theorem reSub_nullTok (M : List (List Char × List Char)) (R : List Char) :
    reSub M (['n', 'u', 'l', 'l'] ++ R) = ['n', 'u', 'l', 'l'] ++ reSub M R := by
  show reSub M ('n' :: 'u' :: 'l' :: 'l' :: R) = ['n', 'u', 'l', 'l'] ++ reSub M R
  rw [reSub_consNonHex M (by decide), reSub_consNonHex M (by decide),
    reSub_consNonHex M (by decide), reSub_consNonHex M (by decide)]
  simp

theorem reSub_trueTok (M : List (List Char × List Char)) {R : List Char}
    (hR : headOther R) :
    reSub M (['t', 'r', 'u', 'e'] ++ R) = ['t', 'r', 'u', 'e'] ++ reSub M R := by
  show reSub M ('t' :: 'r' :: 'u' :: 'e' :: R) = ['t', 'r', 'u', 'e'] ++ reSub M R
  rw [reSub_consNonHex M (by decide), reSub_consNonHex M (by decide),
    reSub_consNonHex M (by decide)]
  rw [show ('e' :: R) = ['e'] ++ R from rfl, reSub_hexRun M hR ['e'] (by decide)]
  simp

theorem reSub_falseTok (M : List (List Char × List Char)) {R : List Char}
    (hR : headOther R) :
    reSub M (['f', 'a', 'l', 's', 'e'] ++ R) = ['f', 'a', 'l', 's', 'e'] ++ reSub M R := by
  have hf : uuidMatch (('f' :: 'a' :: 'l' :: 's' :: 'e' :: R).take 36) = false := by
    apply uuidMatch_no_other (c := 'l') _ (by decide)
    show 'l' ∈ 'f' :: 'a' :: 'l' :: (('s' :: 'e' :: R).take 33)
    simp
  have ha : uuidMatch (('a' :: 'l' :: 's' :: 'e' :: R).take 36) = false := by
    apply uuidMatch_no_other (c := 'l') _ (by decide)
    show 'l' ∈ 'a' :: 'l' :: (('s' :: 'e' :: R).take 34)
    simp
  show reSub M ('f' :: 'a' :: 'l' :: 's' :: 'e' :: R) = ['f', 'a', 'l', 's', 'e'] ++ reSub M R
  rw [reSub_cons, if_neg (by rw [hf]; exact Bool.false_ne_true)]
  rw [reSub_cons, if_neg (by rw [ha]; exact Bool.false_ne_true)]
  rw [reSub_consNonHex M (by decide), reSub_consNonHex M (by decide)]
  rw [show ('e' :: R) = ['e'] ++ R from rfl, reSub_hexRun M hR ['e'] (by decide)]
  simp

theorem value_chars_plain {M : List (List Char × List Char)}
    (Mok : ∀ p ∈ M, p.2.map classOf = uuidTemplate) {p : List Char × List Char}
    (hp : p ∈ M) {c : Char} (hc : c ∈ p.2) : plainChar c = true := by
  apply plainChar_of_class
  intro ho
  have hmem : CClass.other ∈ p.2.map classOf := by
    rw [← ho]
    exact List.mem_map_of_mem classOf hc
  rw [Mok p hp] at hmem
  revert hmem
  decide

theorem reSub_keeps_plain {M : List (List Char × List Char)}
    (Mok : ∀ p ∈ M, p.2.map classOf = uuidTemplate) {cs : List Char}
    (h : ∀ c ∈ cs, plainChar c = true) :
    ∀ c ∈ reSub M cs, plainChar c = true := by
  intro c hc
  rcases reSub_mem M cs c hc with h1 | ⟨p, hp, hcp⟩
  · exact h c h1
  · exact value_chars_plain Mok hp hcp

mutual

/-- On plain payloads, the textual UUID substitution over the serialization
is the serialization of the structural rewrite. -/
theorem comm_val (M : List (List Char × List Char))
    (Mok : ∀ p ∈ M, p.2.map classOf = uuidTemplate) :
    ∀ (j : JVal), plainJson j = true → ∀ (R : List Char), headOther R →
      reSub M (dumps j ++ R) = dumps (reSubJ M j) ++ reSub M R
  | .null, _, R, _ => by
    simp only [dumps, reSubJ]
    exact reSub_nullTok M R
  | .bool true, _, R, hR => by
    simp only [dumps, reSubJ]
    exact reSub_trueTok M hR
  | .bool false, _, R, hR => by
    simp only [dumps, reSubJ]
    exact reSub_falseTok M hR
  | .num i, _, R, hR => by
    simp only [dumps, reSubJ]
    exact reSub_intDump M hR i
  | .str s, hp, R, hR => by
    simp only [dumps, reSubJ]
    have hplain : ∀ c ∈ s.data, plainChar c = true := by
      simp only [plainJson, List.all_eq_true] at hp
      exact hp
    have hplain2 : ∀ c ∈ reSub M s.data, plainChar c = true :=
      reSub_keeps_plain Mok hplain
    rw [escList_plain hplain, escList_plain hplain2]
    rw [show ('"' :: s.data ++ ['"']) ++ R = '"' :: (s.data ++ ('"' :: R)) from by simp]
    rw [reSub_consNonHex M (by decide)]
    rw [reSub_append M (headOther_cons (by decide) R) s.data]
    rw [reSub_consNonHex M (by decide)]
    simp
  | .arr [], _, R, _ => by
    simp only [dumps, reSubJ, reSubJList, dumpsItems]
    show reSub M ('[' :: ']' :: R) = '[' :: ']' :: reSub M R
    rw [reSub_consNonHex M (by decide), reSub_consNonHex M (by decide)]
  | .arr (e :: t), hp, R, hR => by
    simp only [dumps, reSubJ]
    have hp' : plainJsonList (e :: t) = true := by
      simpa only [plainJson] using hp
    rw [show ('[' :: dumpsItems (e :: t) ++ [']']) ++ R =
      '[' :: (dumpsItems (e :: t) ++ (']' :: R)) from by simp]
    rw [reSub_consNonHex M (by decide)]
    rw [comm_items M Mok (e :: t) hp' (']' :: R) (headOther_cons (by decide) R)]
    rw [reSub_consNonHex M (by decide)]
    simp
  | .obj [], _, R, _ => by
    simp only [dumps, reSubJ, reSubJObj, dumpsMembers]
    show reSub M ('{' :: '}' :: R) = '{' :: '}' :: reSub M R
    rw [reSub_consNonHex M (by decide), reSub_consNonHex M (by decide)]
  | .obj (kv :: t), hp, R, hR => by
    simp only [dumps, reSubJ]
    have hp' : plainJsonObj (kv :: t) = true := by
      simpa only [plainJson] using hp
    rw [show ('{' :: dumpsMembers (kv :: t) ++ ['}']) ++ R =
      '{' :: (dumpsMembers (kv :: t) ++ ('}' :: R)) from by simp]
    rw [reSub_consNonHex M (by decide)]
    rw [comm_members M Mok (kv :: t) hp' ('}' :: R) (headOther_cons (by decide) R)]
    rw [reSub_consNonHex M (by decide)]
    simp
termination_by j _ _ _ => sizeOf j
decreasing_by all_goals (first | omega | (simp_wf; omega) | (simp_wf; simp; omega) | (simp; omega) | decreasing_tactic)

theorem comm_items (M : List (List Char × List Char))
    (Mok : ∀ p ∈ M, p.2.map classOf = uuidTemplate) :
    ∀ (l : List JVal), plainJsonList l = true → ∀ (R : List Char), headOther R →
      reSub M (dumpsItems l ++ R) = dumpsItems (reSubJList M l) ++ reSub M R
  | [], _, R, _ => by
    simp only [dumpsItems, reSubJList, List.nil_append]
  | [j], hp, R, hR => by
    have hpj : plainJson j = true := by
      simp only [plainJsonList, Bool.and_eq_true] at hp
      exact hp.1
    simp only [reSubJList, dumpsItems]
    exact comm_val M Mok j hpj R hR
  | j :: j2 :: t2, hp, R, hR => by
    have hpj : plainJson j = true := by
      simp only [plainJsonList, Bool.and_eq_true] at hp
      exact hp.1
    have hpt : plainJsonList (j2 :: t2) = true := by
      simp only [plainJsonList, Bool.and_eq_true] at hp
      simp only [plainJsonList, Bool.and_eq_true]
      exact hp.2
    have hdi : dumpsItems (j :: j2 :: t2) = dumps j ++ ',' :: ' ' :: dumpsItems (j2 :: t2) := by
      rw [dumpsItems]
      simp
    have hdi2 : dumpsItems (reSubJ M j :: reSubJ M j2 :: reSubJList M t2) =
        dumps (reSubJ M j) ++ ',' :: ' ' :: dumpsItems (reSubJ M j2 :: reSubJList M t2) := by
      rw [dumpsItems]
      simp
    simp only [reSubJList]
    rw [hdi, hdi2]
    rw [show (dumps j ++ ',' :: ' ' :: dumpsItems (j2 :: t2)) ++ R =
      dumps j ++ (',' :: (' ' :: (dumpsItems (j2 :: t2) ++ R))) from by simp]
    rw [comm_val M Mok j hpj _ (headOther_cons (by decide) _)]
    rw [reSub_consNonHex M (by decide), reSub_consNonHex M (by decide)]
    have hrec := comm_items M Mok (j2 :: t2) hpt R hR
    simp only [reSubJList] at hrec
    rw [hrec]
    simp
termination_by l _ _ _ => sizeOf l
decreasing_by all_goals (first | omega | (simp_wf; omega) | (simp_wf; simp; omega) | (simp; omega) | decreasing_tactic)

theorem comm_members (M : List (List Char × List Char))
    (Mok : ∀ p ∈ M, p.2.map classOf = uuidTemplate) :
    ∀ (m : List (String × JVal)), plainJsonObj m = true → ∀ (R : List Char), headOther R →
      reSub M (dumpsMembers m ++ R) = dumpsMembers (reSubJObj M m) ++ reSub M R
  | [], _, R, _ => by
    simp only [dumpsMembers, reSubJObj, List.nil_append]
  | [(k, v)], hp, R, hR => by
    have hpk : ∀ c ∈ k.data, plainChar c = true := by
      simp only [plainJsonObj, Bool.and_eq_true, List.all_eq_true] at hp
      exact hp.1.1
    have hpv : plainJson v = true := by
      simp only [plainJsonObj, Bool.and_eq_true] at hp
      exact hp.1.2
    simp only [reSubJObj, dumpsMembers]
    rw [escList_plain hpk, escList_plain (reSub_keeps_plain Mok hpk)]
    rw [show ('"' :: k.data ++ '"' :: ':' :: ' ' :: dumps v) ++ R =
      '"' :: (k.data ++ ('"' :: (':' :: (' ' :: (dumps v ++ R))))) from by simp]
    rw [reSub_consNonHex M (by decide)]
    rw [reSub_append M (headOther_cons (by decide) _) k.data]
    rw [reSub_consNonHex M (by decide), reSub_consNonHex M (by decide),
      reSub_consNonHex M (by decide)]
    rw [comm_val M Mok v hpv R hR]
    simp
  | (k, v) :: (k2, v2) :: t2, hp, R, hR => by
    have hpk : ∀ c ∈ k.data, plainChar c = true := by
      simp only [plainJsonObj, Bool.and_eq_true, List.all_eq_true] at hp
      exact hp.1.1
    have hpv : plainJson v = true := by
      simp only [plainJsonObj, Bool.and_eq_true] at hp
      exact hp.1.2
    have hpt : plainJsonObj ((k2, v2) :: t2) = true := by
      simp only [plainJsonObj, Bool.and_eq_true] at hp
      simp only [plainJsonObj, Bool.and_eq_true]
      exact hp.2
    have hdm : dumpsMembers ((k, v) :: (k2, v2) :: t2) =
        '"' :: escList k.data ++ '"' :: ':' :: ' ' :: dumps v ++
        ',' :: ' ' :: dumpsMembers ((k2, v2) :: t2) := by
      rw [dumpsMembers]
      simp
    have hdm2 : dumpsMembers ((⟨reSub M k.data⟩, reSubJ M v) :: (⟨reSub M k2.data⟩, reSubJ M v2) ::
        reSubJObj M t2) = '"' :: escList (reSub M k.data) ++ '"' :: ':' :: ' ' ::
        dumps (reSubJ M v) ++ ',' :: ' ' ::
        dumpsMembers ((⟨reSub M k2.data⟩, reSubJ M v2) :: reSubJObj M t2) := by
      rw [dumpsMembers]
      simp
    simp only [reSubJObj]
    rw [hdm, hdm2]
    rw [escList_plain hpk, escList_plain (reSub_keeps_plain Mok hpk)]
    rw [show ('"' :: k.data ++ '"' :: ':' :: ' ' :: dumps v ++
      ',' :: ' ' :: dumpsMembers ((k2, v2) :: t2)) ++ R =
      '"' :: (k.data ++ ('"' :: (':' :: (' ' :: (dumps v ++
        (',' :: (' ' :: (dumpsMembers ((k2, v2) :: t2) ++ R)))))))) from by simp]
    rw [reSub_consNonHex M (by decide)]
    rw [reSub_append M (headOther_cons (by decide) _) k.data]
    rw [reSub_consNonHex M (by decide), reSub_consNonHex M (by decide),
      reSub_consNonHex M (by decide)]
    rw [comm_val M Mok v hpv _ (headOther_cons (by decide) _)]
    rw [reSub_consNonHex M (by decide), reSub_consNonHex M (by decide)]
    have hrec := comm_members M Mok ((k2, v2) :: t2) hpt R hR
    simp only [reSubJObj] at hrec
    rw [hrec]
    simp
termination_by m _ _ _ => sizeOf m
decreasing_by all_goals (first | omega | (simp_wf; omega) | (simp_wf; simp; omega) | (simp; omega) | decreasing_tactic)

end

mutual

/-- The structural rewrite preserves plainness (mapping values are made of
hex and dash characters only). -/
theorem plain_reSubJ (M : List (List Char × List Char))
    (Mok : ∀ p ∈ M, p.2.map classOf = uuidTemplate) :
    ∀ j : JVal, plainJson j = true → plainJson (reSubJ M j) = true
  | .null, _ => rfl
  | .bool b, _ => rfl
  | .num i, _ => rfl
  | .str s, hp => by
    simp only [reSubJ, plainJson, List.all_eq_true] at hp ⊢
    exact reSub_keeps_plain Mok hp
  | .arr l, hp => by
    simp only [reSubJ, plainJson] at hp ⊢
    exact plain_reSubJList M Mok l hp
  | .obj m, hp => by
    simp only [reSubJ, plainJson] at hp ⊢
    exact plain_reSubJObj M Mok m hp

theorem plain_reSubJList (M : List (List Char × List Char))
    (Mok : ∀ p ∈ M, p.2.map classOf = uuidTemplate) :
    ∀ l : List JVal, plainJsonList l = true → plainJsonList (reSubJList M l) = true
  | [], _ => rfl
  | j :: t, hp => by
    simp only [plainJsonList, Bool.and_eq_true] at hp
    simp only [reSubJList, plainJsonList, Bool.and_eq_true]
    exact ⟨plain_reSubJ M Mok j hp.1, plain_reSubJList M Mok t hp.2⟩

theorem plain_reSubJObj (M : List (List Char × List Char))
    (Mok : ∀ p ∈ M, p.2.map classOf = uuidTemplate) :
    ∀ m : List (String × JVal), plainJsonObj m = true → plainJsonObj (reSubJObj M m) = true
  | [], _ => rfl
  | (k, v) :: t, hp => by
    simp only [plainJsonObj, Bool.and_eq_true, List.all_eq_true] at hp
    simp only [reSubJObj, plainJsonObj, Bool.and_eq_true, List.all_eq_true]
    exact ⟨⟨reSub_keeps_plain Mok hp.1.1, plain_reSubJ M Mok v hp.1.2⟩,
      plain_reSubJObj M Mok t hp.2⟩

end

mutual

/-- Structural idempotence of the rewrite, lifted from the string level. -/
theorem reSubJ_idem (M : List (List Char × List Char))
    (hv : ∀ p ∈ M, p.2.map classOf = uuidTemplate)
    (hvk : ∀ p ∈ M, ∀ q ∈ M, p.2 ≠ q.1) :
    ∀ j : JVal, reSubJ M (reSubJ M j) = reSubJ M j
  | .null => rfl
  | .bool b => rfl
  | .num i => rfl
  | .str s => by
    simp only [reSubJ]
    rw [reSub_idem M hv hvk s.data]
  | .arr l => by
    simp only [reSubJ]
    rw [reSubJList_idem M hv hvk l]
  | .obj m => by
    simp only [reSubJ]
    rw [reSubJObj_idem M hv hvk m]

theorem reSubJList_idem (M : List (List Char × List Char))
    (hv : ∀ p ∈ M, p.2.map classOf = uuidTemplate)
    (hvk : ∀ p ∈ M, ∀ q ∈ M, p.2 ≠ q.1) :
    ∀ l : List JVal, reSubJList M (reSubJList M l) = reSubJList M l
  | [] => rfl
  | j :: t => by
    simp only [reSubJList]
    rw [reSubJ_idem M hv hvk j, reSubJList_idem M hv hvk t]

theorem reSubJObj_idem (M : List (List Char × List Char))
    (hv : ∀ p ∈ M, p.2.map classOf = uuidTemplate)
    (hvk : ∀ p ∈ M, ∀ q ∈ M, p.2 ≠ q.1) :
    ∀ m : List (String × JVal), reSubJObj M (reSubJObj M m) = reSubJObj M m
  | [] => rfl
  | (k, v) :: t => by
    simp only [reSubJObj]
    rw [reSub_idem M hv hvk k.data, reSubJ_idem M hv hvk v, reSubJObj_idem M hv hvk t]

end

theorem insortChar_perm (c : Char) : ∀ l : List Char, (insortChar c l).Perm (c :: l) := by
  intro l
  induction l with
  | nil => rfl
  | cons d t ih =>
    rw [insortChar]
    by_cases h : c ≤ d
    · rw [if_pos h]
    · rw [if_neg h]
      exact (ih.cons d).trans (List.Perm.swap c d t)

theorem sortChars_perm : ∀ l : List Char, (sortChars l).Perm l := by
  intro l
  induction l with
  | nil => rfl
  | cons c t ih =>
    rw [sortChars]
    exact (insortChar_perm c (sortChars t)).trans (ih.cons c)

theorem insortChar_sorted (c : Char) :
    ∀ l : List Char, l.Sorted (· ≤ ·) → (insortChar c l).Sorted (· ≤ ·) := by
  intro l
  induction l with
  | nil => intro _; simp [insortChar]
  | cons d t ih =>
    intro hs
    rw [insortChar]
    rw [List.sorted_cons] at hs
    by_cases h : c ≤ d
    · rw [if_pos h]
      rw [List.sorted_cons]
      refine ⟨?_, List.sorted_cons.mpr hs⟩
      intro b hb
      rcases List.mem_cons.mp hb with hb | hb
      · exact hb ▸ h
      · exact le_trans h (hs.1 b hb)
    · rw [if_neg h]
      rw [List.sorted_cons]
      refine ⟨?_, ih hs.2⟩
      intro b hb
      have := (insortChar_perm c t).mem_iff.mp hb
      rcases List.mem_cons.mp this with hb | hb
      · exact hb ▸ le_of_not_le h
      · exact hs.1 b hb

theorem sortChars_sorted : ∀ l : List Char, (sortChars l).Sorted (· ≤ ·) := by
  intro l
  induction l with
  | nil => exact List.sorted_nil
  | cons c t ih => exact insortChar_sorted c (sortChars t) ih

/-- Two permuted character lists have equal sorts. -/
theorem sortChars_eq_of_perm {a b : List Char} (h : a.Perm b) :
    sortChars a = sortChars b := by
  have hp : (sortChars a).Perm (sortChars b) :=
    ((sortChars_perm a).trans h).trans (sortChars_perm b).symm
  exact List.eq_of_perm_of_sorted hp (sortChars_sorted a) (sortChars_sorted b)

theorem dumpsMembers_singleton (kv : String × JVal) :
    dumpsMembers [kv] = memberChars kv := by
  obtain ⟨k, v⟩ := kv
  rfl

theorem dumpsMembers_cons₂ (k : String) (v : JVal) (y : String × JVal)
    (t : List (String × JVal)) :
    dumpsMembers ((k, v) :: y :: t) =
      memberChars (k, v) ++ ',' :: ' ' :: dumpsMembers (y :: t) := by
  rw [dumpsMembers]
  · simp [memberChars]
  · simp

theorem dumpsMembers_cons_of_ne_nil (x : String × JVal)
    {m : List (String × JVal)} (h : m ≠ []) :
    dumpsMembers (x :: m) = memberChars x ++ ',' :: ' ' :: dumpsMembers m := by
  obtain ⟨k, v⟩ := x
  cases m with
  | nil => exact absurd rfl h
  | cons y t => exact dumpsMembers_cons₂ k v y t

/-- Permuting the members of an object permutes the characters of its
serialization. -/
theorem dumpsMembers_perm {m₁ m₂ : List (String × JVal)} (h : m₁.Perm m₂) :
    (dumpsMembers m₁).Perm (dumpsMembers m₂) := by
  induction h with
  | nil => exact List.Perm.refl _
  | @cons x l₁ l₂ h ih =>
    cases l₁ with
    | nil =>
      cases l₂ with
      | nil => exact List.Perm.refl _
      | cons b t2 => exact absurd h.length_eq (by simp)
    | cons a t =>
      cases l₂ with
      | nil => exact absurd h.length_eq (by simp)
      | cons b t2 =>
        rw [dumpsMembers_cons_of_ne_nil x (by simp),
          dumpsMembers_cons_of_ne_nil x (by simp)]
        exact List.Perm.append_left _ ((ih.cons ' ').cons ',')
  | swap x y l =>
    cases l with
    | nil =>
      rw [show dumpsMembers (y :: x :: ([] : List (String × JVal))) =
            memberChars y ++ ',' :: ' ' :: dumpsMembers [x] from
          dumpsMembers_cons_of_ne_nil y (by simp),
        show dumpsMembers (x :: y :: ([] : List (String × JVal))) =
            memberChars x ++ ',' :: ' ' :: dumpsMembers [y] from
          dumpsMembers_cons_of_ne_nil x (by simp),
        dumpsMembers_singleton, dumpsMembers_singleton]
      rw [List.perm_iff_count]
      intro c
      simp only [List.count_append, List.count_cons]
      omega
    | cons z t =>
      rw [dumpsMembers_cons_of_ne_nil y (by simp),
        dumpsMembers_cons_of_ne_nil x (by simp),
        dumpsMembers_cons_of_ne_nil x (by simp),
        dumpsMembers_cons_of_ne_nil y (by simp)]
      rw [List.perm_iff_count]
      intro c
      simp only [List.count_append, List.count_cons]
      omega
  | trans _ _ ih₁ ih₂ => exact ih₁.trans ih₂

theorem dumps_obj_perm {m₁ m₂ : List (String × JVal)} (h : m₁.Perm m₂) :
    (dumps (.obj m₁)).Perm (dumps (.obj m₂)) := by
  simp only [dumps]
  exact (((dumpsMembers_perm h).append_right _).cons _)

/-- C1: `is_equal` is insensitive to the key insertion order of the compared
payloads: permuted member lists always compare equal. -/
theorem is_equal_insensitive_to_key_order (id_tag : Option String)
    (skip_cmp_tag_set : List String) {P Q : List (String × JVal)}
    (h : P.Perm Q) :
    is_equal id_tag skip_cmp_tag_set P Q = true := by
  have hf : (cmpFilter id_tag skip_cmp_tag_set P).Perm
      (cmpFilter id_tag skip_cmp_tag_set Q) := h.filter _
  have hd := dumps_obj_perm hf
  rw [is_equal, sortChars_eq_of_perm hd]
  exact beq_self_eq_true _

theorem is_equal_key_order_example :
    is_equal none [] [("a", JVal.num 1), ("b", JVal.num 2)]
      [("b", JVal.num 2), ("a", JVal.num 1)] = true :=
  is_equal_insensitive_to_key_order none []
    (List.Perm.swap ("b", JVal.num 2) ("a", JVal.num 1) [])

/-- C9: two payloads that are not reorderings of each other (the values are
attached to different keys) still compare equal, because the comparison only
sorts the characters of the two serializations, and the serializations are
anagrams. -/
theorem is_equal_anagram_confusion :
    is_equal none [] [("a", JVal.num 1), ("b", JVal.num 2)]
        [("a", JVal.num 2), ("b", JVal.num 1)] = true ∧
      ¬ ([("a", JVal.num 1), ("b", JVal.num 2)]).Perm
          [("a", JVal.num 2), ("b", JVal.num 1)] := by
  constructor
  · rfl
  · intro h
    have hm := h.mem_iff.mp (List.mem_cons_self ("a", JVal.num 1) _)
    simp at hm

/-- On plain payloads with UUID-shaped mapping values, `_update_ids` succeeds
and acts as the structural rewrite `reSubJ`. -/
theorem update_ids_plain (M : List (String × String)) (j : JVal)
    (hj : plainJson j = true)
    (hv : ∀ p ∈ M.map (fun p => (p.1.data, p.2.data)),
      p.2.map classOf = uuidTemplate) :
    update_ids M j =
      some (reSubJ (M.map (fun p => (p.1.data, p.2.data))) j) := by
  rw [update_ids]
  have h := comm_val _ hv j hj [] headOther_nil
  rw [List.append_nil, reSub_nil, List.append_nil] at h
  rw [h, loads_dumps]

/-- C3: the empty identifier mapping leaves every payload unchanged. -/
theorem update_ids_empty_mapping (P : JVal) : update_ids [] P = some P := by
  rw [update_ids]
  show loads (reSub [] (dumps P)) = some P
  rw [reSub_empty, loads_dumps]

/-- C2 (amended): on plain payloads, when every mapping value is UUID-shaped
and no mapping value is also a mapping key, `_update_ids` is idempotent. -/
theorem update_ids_idem (M : List (String × String)) (P : JVal)
    (hP : plainJson P = true)
    (hv : ∀ p ∈ M.map (fun p => (p.1.data, p.2.data)),
      p.2.map classOf = uuidTemplate)
    (hvk : ∀ p ∈ M.map (fun p => (p.1.data, p.2.data)),
      ∀ q ∈ M.map (fun p => (p.1.data, p.2.data)), p.2 ≠ q.1) :
    (update_ids M P).bind (update_ids M) = update_ids M P := by
  rw [update_ids_plain M P hP hv, Option.some_bind,
    update_ids_plain M _ (plain_reSubJ _ hv P hP) hv,
    reSubJ_idem _ hv hvk P]

theorem update_ids_idem_example :
    (update_ids [("aaaaaaaa-aaaa-aaaa-aaaa-aaaaaaaaaaaa",
        "bbbbbbbb-bbbb-bbbb-bbbb-bbbbbbbbbbbb")]
      (JVal.obj [("name", JVal.str "x"),
        ("id", JVal.str "aaaaaaaa-aaaa-aaaa-aaaa-aaaaaaaaaaaa")])).bind
      (update_ids [("aaaaaaaa-aaaa-aaaa-aaaa-aaaaaaaaaaaa",
        "bbbbbbbb-bbbb-bbbb-bbbb-bbbbbbbbbbbb")]) =
    update_ids [("aaaaaaaa-aaaa-aaaa-aaaa-aaaaaaaaaaaa",
        "bbbbbbbb-bbbb-bbbb-bbbb-bbbbbbbbbbbb")]
      (JVal.obj [("name", JVal.str "x"),
        ("id", JVal.str "aaaaaaaa-aaaa-aaaa-aaaa-aaaaaaaaaaaa")]) :=
  update_ids_idem _ _ (by rfl) (by decide) (by decide)

/-- C2 (counterexample): a payload and a mapping without transitive chains
(no value is a key) on which the rewrite is not idempotent: the second
application changes the payload again. -/
theorem update_ids_not_idem_example :
    (∀ p ∈ ceM, ∀ q ∈ ceM, p.2 ≠ q.1) ∧
      update_ids ceM ceP = some ceQ₁ ∧
      update_ids ceM ceQ₁ = some ceQ₂ ∧
      ceQ₂ ≠ ceQ₁ := by
  refine ⟨by decide, rfl, rfl, ?_⟩
  simp [ceQ₁, ceQ₂]

/-- The structural rewrite of an object is a map over its members. -/
theorem reSubJObj_eq_map (M : List (List Char × List Char)) :
    ∀ m : List (String × JVal), reSubJObj M m =
      m.map (fun kv => ((⟨reSub M kv.1.data⟩ : String), reSubJ M kv.2))
  | [] => rfl
  | (k, v) :: t => by
    rw [reSubJObj, List.map_cons, reSubJObj_eq_map M t]

/-- A scan pass either leaves the text unchanged or leaves a dash-class
character in it (every replacement emits a UUID-shaped block). -/
theorem reSub_eq_or_dash (M : List (List Char × List Char))
    (hv : ∀ p ∈ M, p.2.map classOf = uuidTemplate) :
    ∀ s : List Char, reSub M s = s ∨ ∃ c ∈ reSub M s, classOf c = CClass.dash := by
  intro s
  induction s using length_induction with
  | _ s IH =>
    cases s with
    | nil => exact Or.inl rfl
    | cons c cs =>
      rw [reSub_cons]
      by_cases h : uuidMatch ((c :: cs).take 36) = true
      · right
        rw [if_pos h]
        cases hl : M.lookup ((c :: cs).take 36) with
        | some v =>
          simp only [hl]
          obtain ⟨p, hp, hpv⟩ := lookup_some_mem hl
          have hvm : uuidMatch v = true := by
            simp only [uuidMatch, decide_eq_true_eq]
            rw [← hpv]
            exact hv p hp
          obtain ⟨d, hd, hdc⟩ := uuidMatch_has_dash hvm
          exact ⟨d, List.mem_append_left _ hd, hdc⟩
        | none =>
          simp only [hl]
          obtain ⟨d, hd, hdc⟩ := uuidMatch_has_dash h
          exact ⟨d, List.mem_append_left _ hd, hdc⟩
      · rw [if_neg h]
        rcases IH cs (by simp) with heq | ⟨d, hd, hdc⟩
        · exact Or.inl (by rw [heq])
        · exact Or.inr ⟨d, List.mem_cons_of_mem _ hd, hdc⟩

/-- When no original key is the (dash-free) tag, no key of the rewritten
object is the tag either: an untouched key stays distinct from it, and a
touched key gains a dash the tag does not have. -/
theorem hasKey_reSubJObj_of_keys_ne (M' : List (List Char × List Char))
    (hv : ∀ p ∈ M', p.2.map classOf = uuidTemplate)
    {t : String} (ht : ∀ c ∈ t.data, classOf c ≠ CClass.dash)
    {m : List (String × JVal)} (hkeys : ∀ kv ∈ m, kv.1 ≠ t) :
    hasKey (reSubJObj M' m) t = false := by
  rw [reSubJObj_eq_map, hasKey, List.any_map, List.any_eq_false]
  intro kv hkv
  simp only [Function.comp, beq_iff_eq]
  rcases reSub_eq_or_dash M' hv kv.1.data with he | ⟨d, hd, hdc⟩
  · rw [he]
    exact hkeys kv hkv
  · intro he2
    have hdat : reSub M' kv.1.data = t.data := congrArg String.data he2
    rw [hdat] at hd
    exact ht d hd hdc

/-- A member whose key is the dash-free tag keeps that exact key across the
rewrite. -/
theorem hasKey_reSubJObj_of_mem (M' : List (List Char × List Char))
    {t : String} (ht : ∀ c ∈ t.data, classOf c ≠ CClass.dash)
    {m : List (String × JVal)} {v : JVal} (hmem : (t, v) ∈ m) :
    hasKey (reSubJObj M' m) t = true := by
  rw [reSubJObj_eq_map, hasKey, List.any_map, List.any_eq_true]
  refine ⟨(t, v), hmem, ?_⟩
  simp only [Function.comp]
  rw [reSub_dashFree M' t.data ht]
  exact beq_self_eq_true t

theorem plainJsonObj_mem : ∀ {m : List (String × JVal)}, plainJsonObj m = true →
    ∀ kv ∈ m, kv.1.data.all plainChar = true ∧ plainJson kv.2 = true := by
  intro m
  induction m with
  | nil =>
    intro _ kv h
    simp at h
  | cons x tl ih =>
    obtain ⟨k, v⟩ := x
    intro hm kv hkv
    rw [plainJsonObj] at hm
    simp only [Bool.and_eq_true] at hm
    rcases List.mem_cons.mp hkv with he | h2
    · subst he
      exact ⟨hm.1.1, hm.1.2⟩
    · exact ih hm.2 kv h2

theorem plainJsonObj_of_forall : ∀ {m : List (String × JVal)},
    (∀ kv ∈ m, kv.1.data.all plainChar = true ∧ plainJson kv.2 = true) →
    plainJsonObj m = true := by
  intro m
  induction m with
  | nil => intro _; rfl
  | cons x tl ih =>
    obtain ⟨k, v⟩ := x
    intro h
    rw [plainJsonObj]
    simp only [Bool.and_eq_true]
    have h1 := h (k, v) (List.mem_cons_self _ _)
    exact ⟨⟨h1.1, h1.2⟩, ih (fun kv hkv => h kv (List.mem_cons_of_mem _ hkv))⟩

/-- Every member of `d[k] = v` comes from `d` or is the new `(k, v)` pair. -/
theorem mem_dictSet {d : List (String × JVal)} {k : String} {v : JVal} :
    ∀ kv ∈ dictSet d k v, kv ∈ d ∨ kv = (k, v) := by
  intro kv h
  rw [dictSet] at h
  by_cases ha : d.any (fun x => x.1 == k) = true
  · rw [if_pos ha] at h
    obtain ⟨x, hx, hfx⟩ := List.mem_map.mp h
    by_cases he : (x.1 == k) = true
    · rw [if_pos he] at hfx
      exact Or.inr hfx.symm
    · rw [if_neg he] at hfx
      exact Or.inl (hfx ▸ hx)
  · rw [if_neg ha] at h
    rcases List.mem_append.mp h with h | h
    · exact Or.inl h
    · exact Or.inr (List.mem_singleton.mp h)

/-- `_update_ids` on a plain object payload: the result is the structurally
rewritten object. -/
theorem update_ids_obj (M : List (String × String)) (m : List (String × JVal))
    (hm : plainJsonObj m = true)
    (hv : ∀ p ∈ M.map (fun p => (p.1.data, p.2.data)),
      p.2.map classOf = uuidTemplate) :
    update_ids M (.obj m) =
      some (.obj (reSubJObj (M.map (fun p => (p.1.data, p.2.data))) m)) := by
  rw [update_ids_plain M (.obj m) (by simpa [plainJson] using hm) hv]
  rfl

/-- C4: with the identity key present in the data, a dash-free identity tag,
a distinct name tag and plain content, the creation payload of `post_data`
never contains the identity key while the update payload of `put_data`
always does. -/
theorem post_put_id_tag
    (t name_tag : String) (ftags : List String) (data : List (String × JVal))
    (M : List (String × String)) (new_name : Option String)
    (hplain : plainJsonObj data = true)
    (hname : name_tag.data.all plainChar = true)
    (hnew : ∀ nm, new_name = some nm → nm.data.all plainChar = true)
    (hv : ∀ p ∈ M.map (fun p => (p.1.data, p.2.data)),
      p.2.map classOf = uuidTemplate)
    (ht : ∀ c ∈ t.data, classOf c ≠ CClass.dash)
    (hnt : name_tag ≠ t)
    (hmem : ∃ v, (t, v) ∈ data) :
    (∃ m, post_data (some t) name_tag ftags data M new_name =
        some (JVal.obj m) ∧ hasKey m t = false) ∧
    (∃ m, put_data M data = some (JVal.obj m) ∧ hasKey m t = true) := by
  constructor
  · have hfk : ∀ kv ∈ data.filter
        (fun kv => !(some kv.1 == some t || ftags.contains kv.1)), kv.1 ≠ t := by
      intro kv hkv he
      have hp := (List.mem_filter.mp hkv).2
      rw [he] at hp
      simp at hp
    have hfp : plainJsonObj (data.filter
        (fun kv => !(some kv.1 == some t || ftags.contains kv.1))) = true :=
      plainJsonObj_of_forall (fun kv hkv =>
        plainJsonObj_mem hplain kv (List.mem_filter.mp hkv).1)
    cases new_name with
    | none =>
      simp only [post_data]
      exact ⟨_, update_ids_obj M _ hfp hv,
        hasKey_reSubJObj_of_keys_ne _ hv ht hfk⟩
    | some nm =>
      simp only [post_data]
      have hrk : ∀ kv ∈ dictSet (data.filter
          (fun kv => !(some kv.1 == some t || ftags.contains kv.1)))
          name_tag (.str nm), kv.1 ≠ t := by
        intro kv hkv
        rcases mem_dictSet kv hkv with h | h
        · exact hfk kv h
        · rw [h]
          exact hnt
      have hrp : plainJsonObj (dictSet (data.filter
          (fun kv => !(some kv.1 == some t || ftags.contains kv.1)))
          name_tag (.str nm)) = true := by
        apply plainJsonObj_of_forall
        intro kv hkv
        rcases mem_dictSet kv hkv with h | h
        · exact plainJsonObj_mem hfp kv h
        · rw [h]
          exact ⟨hname, by simpa [plainJson] using hnew nm rfl⟩
      exact ⟨_, update_ids_obj M _ hrp hv,
        hasKey_reSubJObj_of_keys_ne _ hv ht hrk⟩
  · obtain ⟨v, hvmem⟩ := hmem
    rw [put_data]
    exact ⟨_, update_ids_obj M data hplain hv,
      hasKey_reSubJObj_of_mem _ ht hvmem⟩

theorem post_put_id_tag_example :
    (∃ m, post_data (some "templateId") "templateName" []
        [("templateId", JVal.str "aaaaaaaa-aaaa-aaaa-aaaa-aaaaaaaaaaaa"),
         ("templateName", JVal.str "x")]
        [("aaaaaaaa-aaaa-aaaa-aaaa-aaaaaaaaaaaa",
          "bbbbbbbb-bbbb-bbbb-bbbb-bbbbbbbbbbbb")]
        (some "y") = some (JVal.obj m) ∧ hasKey m "templateId" = false) ∧
    (∃ m, put_data
        [("aaaaaaaa-aaaa-aaaa-aaaa-aaaaaaaaaaaa",
          "bbbbbbbb-bbbb-bbbb-bbbb-bbbbbbbbbbbb")]
        [("templateId", JVal.str "aaaaaaaa-aaaa-aaaa-aaaa-aaaaaaaaaaaa"),
         ("templateName", JVal.str "x")] = some (JVal.obj m) ∧
      hasKey m "templateId" = true) :=
  post_put_id_tag "templateId" "templateName" [] _ _ (some "y")
    (by rfl) (by rfl)
    (fun nm h => by
      injection h with h2
      rw [← h2]
      rfl)
    (by decide) (by decide) (by decide)
    ⟨JVal.str "aaaaaaaa-aaaa-aaaa-aaaa-aaaaaaaaaaaa", List.mem_cons_self _ _⟩

theorem filterMap_length_of_isSome {α β : Type} (f : α → Option β) :
    ∀ l : List α, (∀ e ∈ l, (f e).isSome = true) →
      (l.filterMap f).length = l.length := by
  intro l
  induction l with
  | nil => intro _; rfl
  | cons e t ih =>
    intro h
    rw [List.filterMap_cons]
    cases he : f e with
    | none =>
      have := h e (List.mem_cons_self e t)
      rw [he] at this
      simp at this
    | some b =>
      simp only [List.length_cons]
      rw [ih (fun x hx => h x (List.mem_cons_of_mem _ hx))]

/-- C5: on an index whose entries all carry the name field, the
extended-naming flag is set exactly when sanitizing the names to
filesystem-safe lowercase form yields fewer distinct strings than the index
has entries. -/
theorem need_extended_name_iff (name_field : String) (data : List JVal)
    (h : ∀ e ∈ data, (extractName name_field e).isSome = true) :
    need_extended_name name_field data = true ↔
      (((data.filterMap (extractName name_field)).map
          (fun nm => filename_safe nm true)).dedup).length < data.length := by
  rw [need_extended_name]
  have hlen : (data.filterMap (extractName name_field)).length = data.length :=
    filterMap_length_of_isSome _ data h
  have hle := List.Sublist.length_le
    (List.dedup_sublist ((data.filterMap (extractName name_field)).map
      (fun nm => filename_safe nm true)))
  rw [List.length_map, hlen] at hle
  simp only [decide_eq_true_eq]
  omega

theorem need_extended_name_example :
    need_extended_name "name"
      [JVal.obj [("name", JVal.str "Foo?1")],
       JVal.obj [("name", JVal.str "foo_1")]] = true :=
  (need_extended_name_iff "name"
      [JVal.obj [("name", JVal.str "Foo?1")],
       JVal.obj [("name", JVal.str "foo_1")]]
      (by decide)).mpr (by decide)

/-- C6 (amended): on ASCII input, the sanitizer keeps letters, digits,
underscore, hyphen and every character of the regex whitespace class `\s`
(space, tab, newline, carriage return, vertical tab, form feed, and the
separator controls U+001C to U+001F) and replaces every other character with
an underscore.  Non-ASCII input follows Python's Unicode `\w`/`\s` classes
and is outside the scope of this model. -/
theorem filename_safe_char_set (name : String)
    (hascii : ∀ c ∈ name.data, c.toNat < 128) :
    (filename_safe name false).data =
      name.data.map (fun c =>
        if c.isAlphanum || c = '_' || c = '-' || c = ' ' || c = '\t' ||
           c = '\n' || c = '\r' || c = '\x0b' || c = '\x0c' ||
           c = '\x1c' || c = '\x1d' || c = '\x1e' || c = '\x1f'
        then c else '_') := by
  show name.data.map _ = name.data.map _
  apply List.map_congr_left
  intro c _
  by_cases h : (c.isAlphanum || c = '_' || c = '-' || c = ' ' || c = '\t' ||
      c = '\n' || c = '\r' || c = '\x0b' || c = '\x0c' ||
      c = '\x1c' || c = '\x1d' || c = '\x1e' || c = '\x1f') = true
  · rw [if_pos h]
    have h2 : (reClassW c || reClassS c || decide (c = '-')) = true := by
      simp only [reClassW, reClassS, Bool.or_eq_true, decide_eq_true_eq] at h ⊢
      tauto
    rw [h2]
    rfl
  · rw [if_neg h]
    have h2 : (reClassW c || reClassS c || decide (c = '-')) = false := by
      cases hb : (reClassW c || reClassS c || decide (c = '-')) with
      | false => rfl
      | true =>
        exfalso
        apply h
        simp only [reClassW, reClassS, Bool.or_eq_true, decide_eq_true_eq] at hb ⊢
        tauto
    rw [h2]
    rfl

theorem filename_safe_char_set_example :
    (filename_safe "A b?\x1c-1" false).data =
      ("A b?\x1c-1" : String).data.map (fun c =>
        if c.isAlphanum || c = '_' || c = '-' || c = ' ' || c = '\t' ||
           c = '\n' || c = '\r' || c = '\x0b' || c = '\x0c' ||
           c = '\x1c' || c = '\x1d' || c = '\x1e' || c = '\x1f'
        then c else '_') :=
  filename_safe_char_set "A b?\x1c-1" (by decide)

/-- C6 (counterexample): the tab character is outside the claimed keep-set
{letters, digits, underscore, space, hyphen}, yet `filename_safe` keeps it
verbatim (the source keeps the whole regex whitespace class `\s`). -/
theorem filename_safe_keeps_tab :
    filename_safe "\t" false = "\t" ∧
      ('\t'.isAlphanum || '\t' = '_' || '\t' = ' ' || '\t' = '-') = false :=
  ⟨rfl, by decide⟩

/-- C7: loading targets the composed path; a missing file yields an absent
result and no error, a present file with invalid JSON yields the domain
error, and a present valid file yields the parsed payload. -/
theorem load_cases (fs : String → Option String) (root_dir node_dir : String)
    (store_path : List String) (store_file : String) (ext_name : Bool)
    (item_name item_id : Option String) :
    (fs (storeFilePath root_dir node_dir store_path store_file ext_name
        item_name item_id) = none →
      load fs root_dir node_dir store_path store_file ext_name
        item_name item_id = .ok none) ∧
    (∀ content, fs (storeFilePath root_dir node_dir store_path store_file
        ext_name item_name item_id) = some content →
      loads content.data = none →
      load fs root_dir node_dir store_path store_file ext_name
        item_name item_id = .error "ModelException: Invalid JSON file") ∧
    (∀ content j, fs (storeFilePath root_dir node_dir store_path store_file
        ext_name item_name item_id) = some content →
      loads content.data = some j →
      load fs root_dir node_dir store_path store_file ext_name
        item_name item_id = .ok (some j)) := by
  refine ⟨?_, ?_, ?_⟩
  · intro h
    rw [load, h]
  · intro content h h2
    rw [load, h]
    dsimp only
    rw [h2]
  · intro content j h h2
    rw [load, h]
    dsimp only
    rw [h2]

theorem load_cases_example :
    load (fun _ => none) "r" "n" [] "f" false none none = .ok none ∧
    load (fun _ => some "not valid json\x7b") "r" "n" [] "f" false none none =
      .error "ModelException: Invalid JSON file" ∧
    load (fun _ => some "\x7b\x7d") "r" "n" [] "f" false none none =
      .ok (some (.obj [])) :=
  ⟨(load_cases (fun _ => none) "r" "n" [] "f" false none none).1 rfl,
   (load_cases (fun _ => some "not valid json\x7b") "r" "n" [] "f" false
      none none).2.1 _ rfl rfl,
   (load_cases (fun _ => some "\x7b\x7d") "r" "n" [] "f" false
      none none).2.2 _ _ rfl rfl⟩

/-- C8 (amended): a transport error propagates unmodified through
`get_raise`, while the `get` classmethod catches it and converts it into an
absent result. -/
theorem get_raise_propagates (e : String) :
    ApiItem.get_raise (Except.error e) = Except.error e ∧
      ApiItem.get (Except.error e) = none ∧
      ∀ j : JVal, ApiItem.get (Except.ok j) = some ⟨j⟩ :=
  ⟨rfl, rfl, fun _ => rfl⟩

/-- C8 (counterexample): a failing REST call does not surface through `get`;
it is converted into an absent result. -/
theorem get_suppresses_error :
    ApiItem.get (Except.error "RestAPIException") = none := rfl

/-- C10: with a missing name or id, `get_filename` returns the static
`store_file` whatever the extended-naming flag says, and `save` (like
`load`) then targets the path ending in that static filename. -/
theorem get_filename_static (store_file : String) (ext_name : Bool)
    (item_name item_id : Option String)
    (h : item_name = none ∨ item_id = none) :
    get_filename store_file ext_name item_name item_id = store_file ∧
    (∀ root_dir node_dir store_path,
      storeFilePath root_dir node_dir store_path store_file ext_name
          item_name item_id =
        String.intercalate "/"
          ([root_dir, node_dir] ++ store_path ++ [store_file])) ∧
    (∀ data root_dir node_dir store_path, is_empty data = false →
      save data root_dir node_dir store_path store_file ext_name
          item_name item_id =
        some (String.intercalate "/"
          ([root_dir, node_dir] ++ store_path ++ [store_file]))) := by
  have h1 : get_filename store_file ext_name item_name item_id = store_file := by
    rcases h with h | h
    · subst h
      cases item_id <;> rfl
    · subst h
      cases item_name <;> rfl
  refine ⟨h1, ?_, ?_⟩
  · intro root_dir node_dir store_path
    rw [storeFilePath, h1]
  · intro data root_dir node_dir store_path hne
    rw [save, if_neg (by rw [hne]; exact Bool.false_ne_true), storeFilePath, h1]

theorem get_filename_static_example :
    get_filename "store.json" true none (some "id-1") = "store.json" ∧
    save (some (JVal.obj [("a", JVal.num 1)])) "root" "node" ["inventory"]
        "store.json" true none (some "id-1") =
      some "root/node/inventory/store.json" :=
  ⟨(get_filename_static "store.json" true none (some "id-1") (Or.inl rfl)).1,
   ((get_filename_static "store.json" true none (some "id-1")
        (Or.inl rfl)).2.2
      (some (JVal.obj [("a", JVal.num 1)])) "root" "node" ["inventory"]
      rfl).trans (by rfl)⟩
